import Mathlib

/-!
The program clk_sync_observer: dissection of captured frames and selection of
the timestamp type.

A shallow embedding of `src/clk_sync_observer/clk_sync_observer.c`:

* the byte readers `get_u8`, `get_u32be`, `get_u64be` and `parse_ntp_packet`;
* `handle_packet`, which strips the Ethernet, IPv4/IPv6 and UDP headers of one
  captured frame and hands the decoded message to the output routine;
* the timestamp-type preference loop of `start_capture`.

A captured frame is the list of its `caplen` bytes.  A read of the C code at an
index that is not below `caplen` is undefined behaviour in C; here it ends the
run with `Res.fault`.  Machine integers are natural numbers, reduced modulo
`2^w` at the places where the C arithmetic can wrap.
-/

namespace ClkSyncObserver

/-! ## Results of a run -/

/-- Result of running a piece of the dissector.
`fault`: a byte was read at an index that is not below the captured length;
`timeout`: the fuel of a loop ran out; `dropped`: the C function returned
without calling the output routine; `ok a`: the run went on with value `a`. -/
inductive Res (α : Type) where
  | fault : Res α
  | timeout : Res α
  | dropped : Res α
  | ok (a : α) : Res α
  deriving DecidableEq, Repr

/-- Sequencing of runs: everything but `ok` ends the run. -/
def Res.bind {α β : Type} (x : Res α) (f : α → Res β) : Res β :=
  match x with
  | .fault => .fault
  | .timeout => .timeout
  | .dropped => .dropped
  | .ok a => f a

instance : Monad Res where
  pure := Res.ok
  bind := Res.bind

/-! ## Bytes and constants -/

/-- One captured octet, the C type of the same name. -/
abbrev uint8_t := Fin 256

/-- The constant of the same name. -/
def IP_VERSION_4 : Nat := 4

/-- The constant of the same name. -/
def IP_VERSION_6 : Nat := 6

/-- Protocol number of UDP in netinet/in.h. -/
def IPPROTO_UDP : Nat := 17

/-- Protocol number of IPv6-in-IPv6 in netinet/in.h. -/
def IPPROTO_IPV6 : Nat := 41

/-- The "do not fragment" flag mask. -/
def IPv4_DF : Nat := 0x4000

/-- The mask of the fragment offset. -/
def IPv4_FOF_MASK : Nat := 0x1fff

/-- The macro `IPv4_version(x) ((x) >> 4)`. -/
def IPv4_version (x : Nat) : Nat := x >>> 4

/-- The macro `IPv4_hdrlen(x) (((x) & 0x0f) * 4)`. -/
def IPv4_hdrlen (x : Nat) : Nat := (x &&& 0x0f) * 4

/-- Size of the packed struct eth_hdr_t: 6 + 6 + 2. -/
def sizeof_eth_hdr_t : Nat := 14

/-- Size of the packed struct ipv6_hdr_t: 4 + 2 + 1 + 1 + 16 + 16. -/
def sizeof_ipv6_hdr_t : Nat := 40

/-- Size of the packed struct udp_hdr_t: 2 + 2 + 2 + 2. -/
def sizeof_udp_hdr_t : Nat := 8

/-- Modelled from the spec: `sizeof(ntp_pkt_pkd_t)`, the packed message type
declared in the header clxync_obsv.h, which is not part of the sources; the
spec gives the fixed message size as 48 bytes. -/
def sizeof_ntp_pkt_pkd_t : Nat := 48

/-- Offsets of the fields of ipv4_hdr_t that the code uses. -/
def ipv4_off_flags_foff : Nat := 6

/-- Offset of `proto` in ipv4_hdr_t. -/
def ipv4_off_proto : Nat := 9

/-- Offset of `src` in ipv4_hdr_t. -/
def ipv4_off_src : Nat := 12

/-- Offset of `dst` in ipv4_hdr_t. -/
def ipv4_off_dst : Nat := 16

/-- Offset of `nexthdr` in ipv6_hdr_t. -/
def ipv6_off_nexthdr : Nat := 6

/-- Offset of `src` in ipv6_hdr_t. -/
def ipv6_off_src : Nat := 8

/-- Offset of `dst` in ipv6_hdr_t. -/
def ipv6_off_dst : Nat := 24

/-! ## Byte readers -/

/-- A dereference `p[i]` of the captured bytes with the bound made explicit. -/
def load (mem : List uint8_t) (i : Nat) : Res Nat :=
  match mem[i]? with
  | some b => .ok b.val
  | none => .fault

/-- The function `get_u8`: the byte under the cursor and the advanced cursor. -/
def get_u8 (mem : List uint8_t) (p : Nat) : Res (Nat × Nat) := do
  let u ← load mem p
  pure (u, p + 1)

/-- The function `get_u32be`, with the shifts done in 32-bit arithmetic. -/
def get_u32be (mem : List uint8_t) (p : Nat) : Res (Nat × Nat) := do
  let (u, p) ← get_u8 mem p
  let u := (u <<< 8) % 2 ^ 32
  let (b, p) ← get_u8 mem p
  let u := u ||| b
  let u := (u <<< 8) % 2 ^ 32
  let (b, p) ← get_u8 mem p
  let u := u ||| b
  let u := (u <<< 8) % 2 ^ 32
  let (b, p) ← get_u8 mem p
  let u := u ||| b
  pure (u, p)

/-- The function `get_u64be`, with the shift done in 64-bit arithmetic. -/
def get_u64be (mem : List uint8_t) (p : Nat) : Res (Nat × Nat) := do
  let (u, p) ← get_u32be mem p
  let u := (u <<< 32) % 2 ^ 64
  let (b, p) ← get_u32be mem p
  let u := u ||| b
  pure (u, p)

/-- The decoded message.  The struct is declared in clxync_obsv.h, which is
not part of the sources; each field is as wide as the read that fills it in
`parse_ntp_packet` (8, 32 and 64 bits), as the spec has it. -/
structure ntp_pkt_t where
  li_vn_mode : Nat
  stratum : Nat
  poll : Nat
  precision : Nat
  root_delay : Nat
  root_disp : Nat
  ref_id : Nat
  ref_tstamp : Nat
  org_tstamp : Nat
  rec_tstamp : Nat
  xmt_tstamp : Nat
  deriving DecidableEq, Repr

/-- The function `parse_ntp_packet`, reading from offset `pkt`. -/
def parse_ntp_packet (mem : List uint8_t) (pkt : Nat) : Res ntp_pkt_t := do
  let (li_vn_mode, pkt) ← get_u8 mem pkt
  let (stratum, pkt) ← get_u8 mem pkt
  let (poll, pkt) ← get_u8 mem pkt
  let (precision, pkt) ← get_u8 mem pkt
  let (root_delay, pkt) ← get_u32be mem pkt
  let (root_disp, pkt) ← get_u32be mem pkt
  let (ref_id, pkt) ← get_u32be mem pkt
  let (ref_tstamp, pkt) ← get_u64be mem pkt
  let (org_tstamp, pkt) ← get_u64be mem pkt
  let (rec_tstamp, pkt) ← get_u64be mem pkt
  let (xmt_tstamp, _) ← get_u64be mem pkt
  pure { li_vn_mode, stratum, poll, precision, root_delay, root_disp, ref_id,
         ref_tstamp, org_tstamp, rec_tstamp, xmt_tstamp }

/-- The three bit fields `ntp2txt` derives from the first byte of the message
(source lines 147 to 150), each stored in a `uint8_t`; the function prints
them, followed by the other fields of the message. -/
def ntp2txt_li_vn_mode (ntp : ntp_pkt_t) : Nat × Nat × Nat :=
  let li := (ntp.li_vn_mode >>> 6) % 2 ^ 8
  let vn := ((ntp.li_vn_mode >>> 3) &&& 0x7) % 2 ^ 8
  let mode := ((ntp.li_vn_mode >>> 0) &&& 0x7) % 2 ^ 8
  (li, vn, mode)

/-! ## The dissector -/

/-- The capture timestamp `header->ts`. -/
structure timeval where
  tv_sec : Nat
  tv_usec : Nat
  deriving DecidableEq, Repr

/-- The arguments `handle_packet` passes to `output_ntp_packet`: one record. -/
structure DissectedPacket where
  ipv6 : Bool
  src_ip : List Nat
  src_port : Nat
  dst_ip : List Nat
  dst_port : Nat
  tstamp : timeval
  ntp : ntp_pkt_t
  deriving DecidableEq, Repr

/-- The macro `CHECK_PACKET_LEN`: return when the cursor is beyond the
captured length. -/
def CHECK_PACKET_LEN (packet caplen : Nat) : Res Unit :=
  if packet > caplen then .dropped else .ok ()

/-- A 16-bit field in network byte order turned into its value: what
`ntohs(field)` and `htons(field)` give for the two bytes at `off` (the native
load and the byte swap cancel on a little-endian host, and both are the
identity on a big-endian one). -/
def load_u16be (mem : List uint8_t) (off : Nat) : Res Nat := do
  let hi ← load mem off
  let lo ← load mem (off + 1)
  pure (hi * 256 + lo)

/-- The `n` bytes that `inet_ntop` reads at the address pointer `off`. -/
def load_addr (mem : List uint8_t) (off : Nat) : Nat → Res (List Nat)
  | 0 => pure []
  | n + 1 => do
    let b ← load mem off
    let rest ← load_addr mem (off + 1) n
    pure (b :: rest)

/-- The loop `while (nexthdr == IPPROTO_IPV6) { packet += 40; CHECK_PACKET_LEN; }`
of the version 6 case, run for at most `fuel` tests of its condition.  The
result is the cursor at which the loop is left. -/
def skip_chained_ipv6 (mem : List uint8_t) : Nat → Nat → Res Nat
  | 0, _ => .timeout
  | fuel + 1, packet => do
    let nexthdr ← load mem (packet + ipv6_off_nexthdr)
    if nexthdr = IPPROTO_IPV6 then
      let packet := packet + sizeof_ipv6_hdr_t
      CHECK_PACKET_LEN packet mem.length
      skip_chained_ipv6 mem fuel packet
    else
      pure packet

/-- The fragmentation test of the version 4 case,
`IPv4_DF || (! (IPv4_FOF_MASK & ntohs(flags_foff)))`: the left operand is the
constant, and the right one is evaluated only when the left one is zero. -/
def ipv4_frag_test (mem : List uint8_t) (packet : Nat) : Res Bool :=
  if IPv4_DF ≠ 0 then pure true
  else do
    let flags_foff ← load_u16be mem (packet + ipv4_off_flags_foff)
    pure (decide (IPv4_FOF_MASK &&& flags_foff = 0))

/-- First part of `handle_packet` (source lines 227 to 272): the Ethernet
header is jumped over and the `switch` on the IP version walks the IP
header(s).  The result is what the rest of the function uses: the address
pointers `src` and `dst`, the flag `ipv6_found` and the cursor `packet`. -/
def handle_packet_ip (mem : List uint8_t) : Res (Nat × Nat × Bool × Nat) := do
  let caplen := mem.length
  let packet := sizeof_eth_hdr_t
  CHECK_PACKET_LEN packet caplen
  let ver_hdrlen ← load mem packet
  if IPv4_version ver_hdrlen = IP_VERSION_4 then do
    let frag_ok ← ipv4_frag_test mem packet
    if !frag_ok then Res.dropped else
    let proto ← load mem (packet + ipv4_off_proto)
    if proto ≠ IPPROTO_UDP then Res.dropped else
    let tmp := packet
    let packet := packet + IPv4_hdrlen ver_hdrlen
    CHECK_PACKET_LEN packet caplen
    pure (tmp + ipv4_off_src, tmp + ipv4_off_dst, false, packet)
  else if IPv4_version ver_hdrlen = IP_VERSION_6 then do
    let packet ← skip_chained_ipv6 mem (caplen + 1) packet
    let nexthdr ← load mem (packet + ipv6_off_nexthdr)
    if nexthdr ≠ IPPROTO_UDP then Res.dropped else
    let tmp := packet
    let packet := packet + sizeof_ipv6_hdr_t
    CHECK_PACKET_LEN packet caplen
    pure (tmp + ipv6_off_src, tmp + ipv6_off_dst, true, packet)
  else Res.dropped

/-- Second part of `handle_packet` (source lines 274 to 287): the UDP header is
jumped over, the remaining length is compared with the message size, the
message is decoded and `output_ntp_packet` is called; `ok r` stands for that
call with the arguments `r`. -/
def handle_packet_udp (ts : timeval) (mem : List uint8_t) (src dst : Nat) (ipv6_found : Bool)
    (packet : Nat) : Res DissectedPacket := do
  let caplen := mem.length
  let tmp := packet
  let packet := packet + sizeof_udp_hdr_t
  CHECK_PACKET_LEN packet caplen
  if caplen - packet ≠ sizeof_ntp_pkt_pkd_t then Res.dropped else
  let ntp ← parse_ntp_packet mem packet
  let src_port ← load_u16be mem tmp
  let dst_port ← load_u16be mem (tmp + 2)
  let src_ip ← load_addr mem src (if ipv6_found then 16 else 4)
  let dst_ip ← load_addr mem dst (if ipv6_found then 16 else 4)
  pure { ipv6 := ipv6_found, src_ip, src_port, dst_ip, dst_port, tstamp := ts, ntp }

/-- The function `handle_packet` on a frame of `mem.length` captured bytes with
capture timestamp `ts`. -/
def handle_packet (ts : timeval) (mem : List uint8_t) : Res DissectedPacket := do
  let (src, dst, ipv6_found, packet) ← handle_packet_ip mem
  handle_packet_udp ts mem src dst ipv6_found packet

/-! ## Timestamp-type selection -/

/-- The table `tstamp_type_pref` of `start_capture`, most preferred first; its
length is what the macro `length` of the header clxync_obsv.h gives. -/
def tstamp_type_pref : List String := ["adapter_unsynced", "adapter", "host"]

/-- The libpcap constant of the same name, the initial `pref_type`. -/
def PCAP_ERROR : Int := -1

/-- The two variables the selection loop of `start_capture` updates. -/
structure tstamp_sel where
  pref_idx : Int
  pref_type : Int
  deriving DecidableEq, Repr

/-- Body of the inner loop for one `j`: the test against the user's choice
`args->tstamp_type` (when there is one), then the test against
`tstamp_type_pref[j]`. -/
def tstamp_body (user : Option String) (name : String) (ty : Int) (j : Nat)
    (s : tstamp_sel) : tstamp_sel :=
  let s :=
    match user with
    | some u => if name = u then { pref_idx := -1, pref_type := ty } else s
    | none => s
  if tstamp_type_pref[j]? = some name then { pref_idx := j, pref_type := ty } else s

/-- The inner loop `for (j = 0; j < pref_idx; j++)` for one supported type
`ty` with name `name`, from `j` on; `pref_idx` is read again at every test.
At most `fuel` tests of the condition are run. -/
def tstamp_inner (user : Option String) (name : String) (ty : Int) :
    Nat → Nat → tstamp_sel → Res tstamp_sel
  | 0, _, _ => Res.timeout
  | fuel + 1, j, s =>
    if (j : Int) < s.pref_idx then
      tstamp_inner user name ty fuel (j + 1) (tstamp_body user name ty j s)
    else Res.ok s

/-- The outer loop `for (i = 0; i < rc; i++)` over the supported types;
`val_to_name` is `pcap_tstamp_type_val_to_name`.  The inner loop gets one more
unit of fuel than the table has entries: `pref_idx` never exceeds the length
of the table, so the loop makes at most that many tests that succeed. -/
def tstamp_outer (val_to_name : Int → String) (user : Option String) :
    List Int → tstamp_sel → Res tstamp_sel
  | [], s => Res.ok s
  | ty :: rest, s => do
    let s ← tstamp_inner user (val_to_name ty) ty (tstamp_type_pref.length + 1) 0 s
    tstamp_outer val_to_name user rest s

/-- The selection loop of `start_capture` (source lines 340 to 360) on the
list `tstamp_types` of supported types, with the user's choice `user`. -/
def select_tstamp_type (val_to_name : Int → String) (user : Option String)
    (tstamp_types : List Int) : Res tstamp_sel :=
  tstamp_outer val_to_name user tstamp_types
    { pref_idx := tstamp_type_pref.length, pref_type := PCAP_ERROR }

/-- The type that `start_capture` sets after the loop (source lines 361 to
370): `pref_type` when `pref_idx` differs from the length of the table,
nothing otherwise. -/
def chosen_tstamp_type (s : tstamp_sel) : Option Int :=
  if s.pref_idx ≠ tstamp_type_pref.length then some s.pref_type else none

/-! ## Vocabulary of the statements

Values of bytes and of big-endian fields of a frame, the record of an accepted
frame, the 48-byte encoding of the spec, and sample frames. -/

/-- The value of byte `i` of the frame (0 outside it). -/
def byteAt (mem : List uint8_t) (i : Nat) : Nat := (mem.getD i 0).val

/-- The big-endian value of the four bytes at `p`. -/
def be32At (mem : List uint8_t) (p : Nat) : Nat :=
  byteAt mem p * 2 ^ 24 + byteAt mem (p + 1) * 2 ^ 16 + byteAt mem (p + 2) * 2 ^ 8
    + byteAt mem (p + 3)

/-- The big-endian value of the eight bytes at `p`. -/
def be64At (mem : List uint8_t) (p : Nat) : Nat :=
  be32At mem p * 2 ^ 32 + be32At mem (p + 4)

/-- The values of the `n` bytes from index `off` on. -/
def bytesAt (mem : List uint8_t) (off : Nat) : Nat → List Nat
  | 0 => []
  | n + 1 => byteAt mem off :: bytesAt mem (off + 1) n

/-- The big-endian value of the two bytes at `off`. -/
def be16At (mem : List uint8_t) (off : Nat) : Nat := byteAt mem off * 256 + byteAt mem (off + 1)

/-- The message in the 48 bytes at `pkt`. -/
def ntpAt (mem : List uint8_t) (pkt : Nat) : ntp_pkt_t :=
  { li_vn_mode := byteAt mem pkt, stratum := byteAt mem (pkt + 1),
    poll := byteAt mem (pkt + 2), precision := byteAt mem (pkt + 3),
    root_delay := be32At mem (pkt + 4), root_disp := be32At mem (pkt + 8),
    ref_id := be32At mem (pkt + 12), ref_tstamp := be64At mem (pkt + 16),
    org_tstamp := be64At mem (pkt + 24), rec_tstamp := be64At mem (pkt + 32),
    xmt_tstamp := be64At mem (pkt + 40) }

/-- The record of an accepted frame whose IP headers end at `packet` and whose
addresses are at `src` and `dst`. -/
def recordAt (ts : timeval) (mem : List uint8_t) (v6 : Bool) (src dst packet : Nat) :
    DissectedPacket :=
  { ipv6 := v6, src_ip := bytesAt mem src (if v6 then 16 else 4), src_port := be16At mem packet,
    dst_ip := bytesAt mem dst (if v6 then 16 else 4), dst_port := be16At mem (packet + 2),
    tstamp := ts, ntp := ntpAt mem (packet + 8) }

/-- The first `n` IPv6 headers from `p` on all have next-header 41. -/
def chained (mem : List uint8_t) (p n : Nat) : Prop :=
  ∀ k, k < n → byteAt mem (p + 40 * k + 6) = 41

instance (mem : List uint8_t) (p n : Nat) : Decidable (chained mem p n) :=
  inferInstanceAs (Decidable (∀ k, k < n → byteAt mem (p + 40 * k + 6) = 41))

/-- The loop of `skip_chained_ipv6` with a counter beside its result: the
second component is the number of times the loop went on after
`packet += sizeof(ipv6_hdr_t)` passed `CHECK_PACKET_LEN`, that is the number of
40-byte headers the cursor advanced past before the loop was left or the
frame rejected. -/
def skip_chained_ipv6_count (mem : List uint8_t) : Nat → Nat → Res Nat × Nat
  | 0, _ => (Res.timeout, 0)
  | fuel + 1, packet =>
    match load mem (packet + ipv6_off_nexthdr) with
    | Res.ok nexthdr =>
      if nexthdr = IPPROTO_IPV6 then
        match CHECK_PACKET_LEN (packet + sizeof_ipv6_hdr_t) mem.length with
        | Res.ok () =>
          ((skip_chained_ipv6_count mem fuel (packet + sizeof_ipv6_hdr_t)).1,
           (skip_chained_ipv6_count mem fuel (packet + sizeof_ipv6_hdr_t)).2 + 1)
        | Res.fault => (Res.fault, 0)
        | Res.timeout => (Res.timeout, 0)
        | Res.dropped => (Res.dropped, 0)
      else (Res.ok packet, 0)
    | Res.fault => (Res.fault, 0)
    | Res.timeout => (Res.timeout, 0)
    | Res.dropped => (Res.dropped, 0)

/-- The offset `u` is where the UDP header of the frame starts: after the IPv4
header when the version is 4 and the header-length nibble is at least 5, after
the last header of the chain of IPv6 headers when the version is 6. -/
def udp_header_at (mem : List uint8_t) (u : Nat) : Prop :=
  (byteAt mem 14 >>> 4 = 4 ∧ 5 ≤ byteAt mem 14 &&& 15 ∧ u = 14 + (byteAt mem 14 &&& 15) * 4) ∨
  (byteAt mem 14 >>> 4 = 6 ∧
    ∃ n, chained mem 14 n ∧ byteAt mem (14 + 40 * n + 6) ≠ 41 ∧ u = 14 + 40 * (n + 1))

/-- Index of a name in the fixed order `tstamp_type_pref`, 3 (the length of
the table) when the name is not in it. -/
def pref_rank (name : String) : Nat := tstamp_type_pref.indexOf name

/-- The four octets of a 32-bit value, most significant first. -/
def put_u32be (v : Nat) : List uint8_t :=
  [Fin.ofNat (v / 2 ^ 24), Fin.ofNat (v / 2 ^ 16), Fin.ofNat (v / 2 ^ 8), Fin.ofNat v]

/-- The eight octets of a 64-bit value, most significant first. -/
def put_u64be (v : Nat) : List uint8_t := put_u32be (v / 2 ^ 32) ++ put_u32be v

/-- The 48-byte encoding of a message as the spec describes it: the fields in
the order of the record, each in big-endian byte order, at the offsets 0, 1,
2, 3, 4, 8, 12, 16, 24, 32 and 40. -/
def encode_ntp_packet (n : ntp_pkt_t) : List uint8_t :=
  [Fin.ofNat n.li_vn_mode, Fin.ofNat n.stratum, Fin.ofNat n.poll, Fin.ofNat n.precision]
    ++ put_u32be n.root_delay ++ put_u32be n.root_disp ++ put_u32be n.ref_id
    ++ put_u64be n.ref_tstamp ++ put_u64be n.org_tstamp ++ put_u64be n.rec_tstamp
    ++ put_u64be n.xmt_tstamp

/-- Every field of the message fits its width: 8, 32 or 64 bits. -/
def ntp_pkt_t.inRange (n : ntp_pkt_t) : Prop :=
  n.li_vn_mode < 2 ^ 8 ∧ n.stratum < 2 ^ 8 ∧ n.poll < 2 ^ 8 ∧ n.precision < 2 ^ 8 ∧
  n.root_delay < 2 ^ 32 ∧ n.root_disp < 2 ^ 32 ∧ n.ref_id < 2 ^ 32 ∧
  n.ref_tstamp < 2 ^ 64 ∧ n.org_tstamp < 2 ^ 64 ∧ n.rec_tstamp < 2 ^ 64 ∧
  n.xmt_tstamp < 2 ^ 64

instance (n : ntp_pkt_t) : Decidable n.inRange := by
  unfold ntp_pkt_t.inRange
  infer_instance

/-- A sample Ethernet header: two addresses and the type field. -/
def sample_eth : List uint8_t :=
  [0x00, 0x11, 0x22, 0x33, 0x44, 0x55, 0x66, 0x77, 0x88, 0x99, 0xaa, 0xbb, 0x08, 0x00]

/-- A sample UDP header: ports 123 and 124, then length and checksum. -/
def sample_udp : List uint8_t := [0, 123, 0, 124, 0, 56, 0, 0]

/-- A sample 48-byte message whose second byte is `stratum`. -/
def sample_ntp (stratum : uint8_t) : List uint8_t :=
  [0x23, stratum, 6, 0xec, 0, 0, 0, 1, 0, 0, 0, 2, 0, 0, 0, 3,
   0, 0, 0, 0, 0, 0, 0, 4, 0, 0, 0, 0, 0, 0, 0, 5,
   0, 0, 0, 0, 0, 0, 0, 6, 0, 0, 0, 0, 0, 0, 0, 7]

/-- The decoded sample message. -/
def sample_msg (stratum : Nat) : ntp_pkt_t :=
  { li_vn_mode := 0x23, stratum := stratum, poll := 6, precision := 0xec, root_delay := 1,
    root_disp := 2, ref_id := 3, ref_tstamp := 4, org_tstamp := 5, rec_tstamp := 6,
    xmt_tstamp := 7 }

/-- A 20-byte IPv4 header with the given two bytes of the flags and fragment
offset field, protocol UDP, from 10.0.0.1 to 10.0.0.2. -/
def sample_ipv4_hdr (flags_hi flags_lo : uint8_t) : List uint8_t :=
  [0x45, 0, 0, 76, 0, 0, flags_hi, flags_lo, 64, 17, 0, 0, 10, 0, 0, 1, 10, 0, 0, 2]

/-- A well-formed 90-byte IPv4 frame with the given flags and fragment offset. -/
def sample_ipv4 (flags_hi flags_lo : uint8_t) : List uint8_t :=
  sample_eth ++ sample_ipv4_hdr flags_hi flags_lo ++ sample_udp ++ sample_ntp 1

/-- A 70-byte frame with version 4 and header length nibble 0: the eight bytes
after the Ethernet header are read as the UDP header, and byte 23 is the
second byte of the message. -/
def sample_ipv4_h0 : List uint8_t :=
  sample_eth ++ [0x40, 0, 0, 124, 0, 0, 0, 0] ++ sample_ntp 17

/-- A 40-byte IPv6 header with the given next-header, source bytes all `s` and
destination bytes all `d`. -/
def sample_ipv6_hdr (nexthdr s d : uint8_t) : List uint8_t :=
  [0x60, 0, 0, 0, 0, 56, nexthdr, 64] ++ List.replicate 16 s ++ List.replicate 16 d

/-- A 150-byte IPv6 frame with one chained IPv6 header before the last one. -/
def sample_ipv6_chain : List uint8_t :=
  sample_eth ++ sample_ipv6_hdr 41 0xaa 0xbb ++ sample_ipv6_hdr 17 0xcc 0xdd ++ sample_udp
    ++ sample_ntp 1

/-- The sample IPv4 frame with other bytes in the length and checksum fields
of its UDP header. -/
def sample_ipv4_badsum : List uint8_t :=
  sample_eth ++ sample_ipv4_hdr 0 0 ++ [0, 123, 0, 124, 0xff, 0xff, 0xde, 0xad]
    ++ sample_ntp 1

/-- A 141-byte frame of three IPv6 headers and the first seven bytes of a
fourth one, all with next-header 41. -/
def sample_ipv6_all41 : List uint8_t :=
  sample_eth ++ sample_ipv6_hdr 41 1 2 ++ sample_ipv6_hdr 41 3 4 ++ sample_ipv6_hdr 41 5 6
    ++ [0x60, 0, 0, 0, 0, 56, 41]

/-- A sample capture timestamp. -/
def sample_ts : timeval := { tv_sec := 1369313287, tv_usec := 500 }

/-- The names libpcap gives to its timestamp types 0 to 4. -/
def sample_val_to_name (ty : Int) : String :=
  if ty = 0 then "host" else if ty = 1 then "host_lowprec" else if ty = 2 then "host_hiprec"
  else if ty = 3 then "adapter" else if ty = 4 then "adapter_unsynced" else "unknown"

/-! ## Lemmas -/

set_option maxRecDepth 100000

@[simp] theorem Res.pure_eq {α : Type} (a : α) : (pure a : Res α) = Res.ok a := rfl

@[simp] theorem Res.ok_bind {α β : Type} (a : α) (f : α → Res β) : (Res.ok a >>= f) = f a := rfl

@[simp] theorem Res.fault_bind {α β : Type} (f : α → Res β) : (Res.fault >>= f) = Res.fault := rfl

@[simp] theorem Res.timeout_bind {α β : Type} (f : α → Res β) : (Res.timeout >>= f) = Res.timeout := rfl

@[simp] theorem Res.dropped_bind {α β : Type} (f : α → Res β) : (Res.dropped >>= f) = Res.dropped := rfl

/-- A sequenced run ends in `ok` exactly when both of its parts do. -/
theorem Res.bind_eq_ok {α β : Type} (x : Res α) (f : α → Res β) (b : β) :
    (x >>= f) = Res.ok b ↔ ∃ a, x = Res.ok a ∧ f a = Res.ok b := by
  cases x <;> simp

theorem byteAt_lt (mem : List uint8_t) (i : Nat) : byteAt mem i < 256 := (mem.getD i 0).isLt

/-- A read below the captured length gives the byte there. -/
theorem load_of_lt {mem : List uint8_t} {i : Nat} (h : i < mem.length) :
    load mem i = Res.ok (byteAt mem i) := by
  simp [load, byteAt, List.getD, List.getElem?_eq_getElem h]

/-- A read at or beyond the captured length is a fault. -/
theorem load_of_ge {mem : List uint8_t} {i : Nat} (h : mem.length ≤ i) :
    load mem i = Res.fault := by
  simp [load, List.getElem?_eq_none h]

theorem load_eq_ok {mem : List uint8_t} {i v : Nat} :
    load mem i = Res.ok v ↔ i < mem.length ∧ byteAt mem i = v := by
  by_cases h : i < mem.length
  · simp [load_of_lt h, h]
  · simp [load_of_ge (Nat.le_of_not_lt h), h]

/-- Shifting a 24-bit value by 8 in 32-bit arithmetic and or-ing a byte in loses
no bit. -/
theorem shl8_or (u b : Nat) (hu : u < 2 ^ 24) (hb : b < 256) :
    ((u <<< 8) % 2 ^ 32) ||| b = u * 256 + b := by
  have h1 : (u <<< 8) % 2 ^ 32 = 2 ^ 8 * u := by
    rw [Nat.shiftLeft_eq, Nat.mod_eq_of_lt (by omega)]; omega
  rw [h1, ← Nat.mul_add_lt_is_or (by simpa using hb)]; omega

/-- Shifting a 32-bit value by 32 in 64-bit arithmetic and or-ing a 32-bit value
in loses no bit. -/
theorem shl32_or (u b : Nat) (hu : u < 2 ^ 32) (hb : b < 2 ^ 32) :
    ((u <<< 32) % 2 ^ 64) ||| b = u * 2 ^ 32 + b := by
  have h1 : (u <<< 32) % 2 ^ 64 = 2 ^ 32 * u := by
    rw [Nat.shiftLeft_eq, Nat.mod_eq_of_lt (by omega)]; omega
  rw [h1, ← Nat.mul_add_lt_is_or hb]; omega

theorem be32At_lt (mem : List uint8_t) (p : Nat) : be32At mem p < 2 ^ 32 := by
  have h0 := byteAt_lt mem p
  have h1 := byteAt_lt mem (p + 1)
  have h2 := byteAt_lt mem (p + 2)
  have h3 := byteAt_lt mem (p + 3)
  unfold be32At; omega

theorem get_u8_of_lt {mem : List uint8_t} {p : Nat} (h : p < mem.length) :
    get_u8 mem p = Res.ok (byteAt mem p, p + 1) := by
  simp [get_u8, load_of_lt h]

/-- With four bytes in bounds `get_u32be` gives their big-endian value and
advances the cursor by 4. -/
theorem get_u32be_of_le {mem : List uint8_t} {p : Nat} (h : p + 4 ≤ mem.length) :
    get_u32be mem p = Res.ok (be32At mem p, p + 4) := by
  have h0 := byteAt_lt mem p
  have h1 := byteAt_lt mem (p + 1)
  have h2 := byteAt_lt mem (p + 2)
  have h3 := byteAt_lt mem (p + 3)
  have e0 : get_u8 mem p = Res.ok (byteAt mem p, p + 1) := get_u8_of_lt (by omega)
  have e1 : get_u8 mem (p + 1) = Res.ok (byteAt mem (p + 1), p + 2) := get_u8_of_lt (by omega)
  have e2 : get_u8 mem (p + 2) = Res.ok (byteAt mem (p + 2), p + 3) := get_u8_of_lt (by omega)
  have e3 : get_u8 mem (p + 3) = Res.ok (byteAt mem (p + 3), p + 4) := get_u8_of_lt (by omega)
  have hv : ((byteAt mem p * 256 + byteAt mem (p + 1)) * 256 + byteAt mem (p + 2)) * 256
      + byteAt mem (p + 3) = be32At mem p := by
    unfold be32At; omega
  simp only [get_u32be, e0, e1, e2, e3, Res.ok_bind, Res.pure_eq]
  rw [shl8_or _ _ (by omega) h1, shl8_or _ _ (by omega) h2, shl8_or _ _ (by omega) h3, hv]

/-- With eight bytes in bounds `get_u64be` gives their big-endian value and
advances the cursor by 8. -/
theorem get_u64be_of_le {mem : List uint8_t} {p : Nat} (h : p + 8 ≤ mem.length) :
    get_u64be mem p = Res.ok (be64At mem p, p + 8) := by
  have e0 : get_u32be mem p = Res.ok (be32At mem p, p + 4) := get_u32be_of_le (by omega)
  have e1 : get_u32be mem (p + 4) = Res.ok (be32At mem (p + 4), p + 8) :=
    get_u32be_of_le (by omega)
  simp only [get_u64be, e0, e1, Res.ok_bind, Res.pure_eq]
  rw [shl32_or _ _ (be32At_lt _ _) (be32At_lt _ _)]
  simp only [be64At]

/-- With 48 bytes in bounds `parse_ntp_packet` gives the message in them. -/
theorem parse_ntp_packet_of_le (mem : List uint8_t) (pkt : Nat)
    (h : pkt + 48 ≤ mem.length) :
    parse_ntp_packet mem pkt = Res.ok
      { li_vn_mode := byteAt mem pkt, stratum := byteAt mem (pkt + 1),
        poll := byteAt mem (pkt + 2), precision := byteAt mem (pkt + 3),
        root_delay := be32At mem (pkt + 4), root_disp := be32At mem (pkt + 8),
        ref_id := be32At mem (pkt + 12), ref_tstamp := be64At mem (pkt + 16),
        org_tstamp := be64At mem (pkt + 24), rec_tstamp := be64At mem (pkt + 32),
        xmt_tstamp := be64At mem (pkt + 40) } := by
  have e0 : get_u8 mem pkt = Res.ok (byteAt mem pkt, pkt + 1) := get_u8_of_lt (by omega)
  have e1 : get_u8 mem (pkt + 1) = Res.ok (byteAt mem (pkt + 1), pkt + 2) :=
    get_u8_of_lt (by omega)
  have e2 : get_u8 mem (pkt + 2) = Res.ok (byteAt mem (pkt + 2), pkt + 3) :=
    get_u8_of_lt (by omega)
  have e3 : get_u8 mem (pkt + 3) = Res.ok (byteAt mem (pkt + 3), pkt + 4) :=
    get_u8_of_lt (by omega)
  have e4 : get_u32be mem (pkt + 4) = Res.ok (be32At mem (pkt + 4), pkt + 8) :=
    get_u32be_of_le (by omega)
  have e5 : get_u32be mem (pkt + 8) = Res.ok (be32At mem (pkt + 8), pkt + 12) :=
    get_u32be_of_le (by omega)
  have e6 : get_u32be mem (pkt + 12) = Res.ok (be32At mem (pkt + 12), pkt + 16) :=
    get_u32be_of_le (by omega)
  have e7 : get_u64be mem (pkt + 16) = Res.ok (be64At mem (pkt + 16), pkt + 24) :=
    get_u64be_of_le (by omega)
  have e8 : get_u64be mem (pkt + 24) = Res.ok (be64At mem (pkt + 24), pkt + 32) :=
    get_u64be_of_le (by omega)
  have e9 : get_u64be mem (pkt + 32) = Res.ok (be64At mem (pkt + 32), pkt + 40) :=
    get_u64be_of_le (by omega)
  have e10 : get_u64be mem (pkt + 40) = Res.ok (be64At mem (pkt + 40), pkt + 48) :=
    get_u64be_of_le (by omega)
  simp only [parse_ntp_packet, e0, e1, e2, e3, e4, e5, e6, e7, e8, e9, e10, Res.ok_bind,
    Res.pure_eq]

theorem load_u16be_of_le {mem : List uint8_t} {off : Nat} (h : off + 2 ≤ mem.length) :
    load_u16be mem off = Res.ok (be16At mem off) := by
  have e0 : load mem off = Res.ok (byteAt mem off) := load_of_lt (by omega)
  have e1 : load mem (off + 1) = Res.ok (byteAt mem (off + 1)) := load_of_lt (by omega)
  simp only [load_u16be, e0, e1, Res.ok_bind, Res.pure_eq, be16At]

theorem load_addr_of_le (mem : List uint8_t) (n : Nat) :
    ∀ off, off + n ≤ mem.length → load_addr mem off n = Res.ok (bytesAt mem off n) := by
  induction n with
  | zero => intro off _; rfl
  | succ n ih =>
    intro off h
    have e0 : load mem off = Res.ok (byteAt mem off) := load_of_lt (by omega)
    simp only [load_addr, e0, ih (off + 1) (by omega), Res.ok_bind, Res.pure_eq, bytesAt]

/-- The second part of `handle_packet` accepts exactly when 56 bytes remain at
the cursor, and then gives the record read there. -/
theorem handle_packet_udp_eq (ts : timeval) (mem : List uint8_t) (v6 : Bool)
    (src dst packet : Nat) (hs : src + 16 ≤ packet + 56) (hd : dst + 16 ≤ packet + 56) :
    handle_packet_udp ts mem src dst v6 packet
    = if mem.length = packet + 56 then Res.ok (recordAt ts mem v6 src dst packet)
      else Res.dropped := by
  by_cases hl : mem.length = packet + 56
  · have e1 := parse_ntp_packet_of_le mem (packet + 8) (by omega)
    have e2 : load_u16be mem packet = Res.ok (be16At mem packet) := load_u16be_of_le (by omega)
    have e3 : load_u16be mem (packet + 2) = Res.ok (be16At mem (packet + 2)) :=
      load_u16be_of_le (by omega)
    have e4 := load_addr_of_le mem (if v6 then 16 else 4) src (by split <;> omega)
    have e5 := load_addr_of_le mem (if v6 then 16 else 4) dst (by split <;> omega)
    have e6 : ¬ (packet + 8 > mem.length) := by omega
    have e7 : mem.length - (packet + 8) = 48 := by omega
    simp only [handle_packet_udp, CHECK_PACKET_LEN, sizeof_udp_hdr_t, sizeof_ntp_pkt_pkd_t, e1,
      e2, e3, e4, e5, e6, e7, hl, if_false, if_true, Res.ok_bind, Res.pure_eq, ne_eq,
      not_true_eq_false, recordAt, ntpAt]
    simp
  · simp only [handle_packet_udp, CHECK_PACKET_LEN, sizeof_udp_hdr_t, sizeof_ntp_pkt_pkd_t, hl,
      if_false]
    by_cases h8 : packet + 8 > mem.length
    · simp [h8]
    · have : mem.length - (packet + 8) ≠ 48 := by omega
      simp [h8, this]

theorem handle_packet_ip_short (mem : List uint8_t) (h : mem.length < 14) :
    handle_packet_ip mem = Res.dropped := by
  have : sizeof_eth_hdr_t > mem.length := by simp only [sizeof_eth_hdr_t]; omega
  simp [handle_packet_ip, CHECK_PACKET_LEN, this]

theorem handle_packet_ip_14 (mem : List uint8_t) (h : mem.length = 14) :
    handle_packet_ip mem = Res.fault := by
  have e : load mem 14 = Res.fault := load_of_ge (by omega)
  simp [handle_packet_ip, CHECK_PACKET_LEN, sizeof_eth_hdr_t, h, e]

/-- The first part of `handle_packet` on the version 4 path. -/
theorem handle_packet_ip_v4 (mem : List uint8_t) (h14 : 14 < mem.length)
    (hv : byteAt mem 14 >>> 4 = 4) :
    handle_packet_ip mem =
      if mem.length ≤ 23 then Res.fault
      else if byteAt mem 23 ≠ 17 then Res.dropped
      else if 14 + (byteAt mem 14 &&& 15) * 4 > mem.length then Res.dropped
      else Res.ok (26, 30, false, 14 + (byteAt mem 14 &&& 15) * 4) := by
  have e0 : load mem 14 = Res.ok (byteAt mem 14) := load_of_lt h14
  have c0 : ¬ (14 > mem.length) := by omega
  simp only [handle_packet_ip, CHECK_PACKET_LEN, sizeof_eth_hdr_t, c0, if_false, Res.ok_bind, e0,
    IPv4_version, hv, IP_VERSION_4, if_true, ipv4_frag_test, IPv4_DF, ipv4_off_proto,
    ipv4_off_src, ipv4_off_dst, IPPROTO_UDP, IPv4_hdrlen]
  by_cases h23 : mem.length ≤ 23
  · have e1 : load mem 23 = Res.fault := load_of_ge (by omega)
    simp [h23, e1]
  · have e1 : load mem 23 = Res.ok (byteAt mem 23) := load_of_lt (by omega)
    simp only [h23, e1, if_false]
    by_cases hp : byteAt mem 23 = 17
    · by_cases hl : 14 + (byteAt mem 14 &&& 15) * 4 > mem.length
      · simp [hp, hl]
      · simp [hp, hl]
    · simp [hp]

theorem handle_packet_ip_other (mem : List uint8_t) (h14 : 14 < mem.length)
    (h4 : byteAt mem 14 >>> 4 ≠ 4) (h6 : byteAt mem 14 >>> 4 ≠ 6) :
    handle_packet_ip mem = Res.dropped := by
  have e0 : load mem 14 = Res.ok (byteAt mem 14) := load_of_lt h14
  have c0 : ¬ (14 > mem.length) := by omega
  simp only [handle_packet_ip, CHECK_PACKET_LEN, sizeof_eth_hdr_t, c0, if_false, Res.ok_bind, e0,
    IPv4_version, h4, h6, IP_VERSION_4, IP_VERSION_6]

/-- The first part of `handle_packet` on the version 6 path. -/
theorem handle_packet_ip_v6 (mem : List uint8_t) (h14 : 14 < mem.length)
    (hv : byteAt mem 14 >>> 4 = 6) :
    handle_packet_ip mem =
      (do
        let packet ← skip_chained_ipv6 mem (mem.length + 1) 14
        let nexthdr ← load mem (packet + 6)
        if nexthdr ≠ 17 then Res.dropped else
        CHECK_PACKET_LEN (packet + 40) mem.length
        pure (packet + 8, packet + 24, true, packet + 40)) := by
  have e0 : load mem 14 = Res.ok (byteAt mem 14) := load_of_lt h14
  have c0 : ¬ (14 > mem.length) := by omega
  simp only [handle_packet_ip, CHECK_PACKET_LEN, sizeof_eth_hdr_t, c0, if_false, Res.ok_bind, e0,
    IPv4_version, hv, IP_VERSION_4, IP_VERSION_6, if_true, ipv6_off_nexthdr, ipv6_off_src,
    ipv6_off_dst, IPPROTO_UDP, sizeof_ipv6_hdr_t]
  simp

/-- The loop over the chained IPv6 headers leaves at cursor `q` exactly when `q`
is `p + 40 n` for some `n` below the fuel, the `n` headers before `q` have
next-header 41, and the header at `q` has its next-header byte in bounds and
different from 41. -/
theorem skip_chained_ipv6_ok (mem : List uint8_t) :
    ∀ fuel p q, skip_chained_ipv6 mem fuel p = Res.ok q ↔
      ∃ n, n < fuel ∧ q = p + 40 * n ∧ chained mem p n ∧ q + 6 < mem.length ∧
        byteAt mem (q + 6) ≠ 41 := by
  intro fuel
  induction fuel with
  | zero => intro p q; simp [skip_chained_ipv6]
  | succ fuel ih =>
    intro p q
    simp only [skip_chained_ipv6, ipv6_off_nexthdr, IPPROTO_IPV6, sizeof_ipv6_hdr_t,
      CHECK_PACKET_LEN]
    by_cases hb : p + 6 < mem.length
    · rw [load_of_lt hb]
      simp only [Res.ok_bind]
      by_cases h41 : byteAt mem (p + 6) = 41
      · have hc : ¬ (p + 40 > mem.length) ∨ (p + 40 > mem.length) := by omega
        rcases hc with hc | hc
        · simp only [h41, if_true, hc, if_false, Res.ok_bind, ih]
          constructor
          · rintro ⟨n, hn, rfl, hch, hq, hne⟩
            refine ⟨n + 1, by omega, by omega, ?_, by omega, ?_⟩
            · intro k hk
              rcases Nat.eq_zero_or_pos k with rfl | hpos
              · simpa using h41
              · obtain ⟨j, rfl⟩ : ∃ j, k = j + 1 := ⟨k - 1, by omega⟩
                have := hch j (by omega)
                rw [show p + 40 * (j + 1) + 6 = p + 40 + 40 * j + 6 by omega]
                exact this
            · exact hne
          · rintro ⟨n, hn, rfl, hch, hq, hne⟩
            rcases Nat.eq_zero_or_pos n with rfl | hpos
            · exact absurd h41 (by simpa using hne)
            · obtain ⟨j, rfl⟩ : ∃ j, n = j + 1 := ⟨n - 1, by omega⟩
              have e : p + 40 * (j + 1) = p + 40 + 40 * j := by omega
              refine ⟨j, by omega, e, ?_, hq, hne⟩
              intro k hk
              have := hch (k + 1) (by omega)
              rw [show p + 40 * (k + 1) + 6 = p + 40 + 40 * k + 6 by omega] at this
              exact this
        · simp only [h41, if_true, hc, Res.dropped_bind, reduceCtorEq, false_iff]
          rintro ⟨n, hn, rfl, hch, hq, hne⟩
          rcases Nat.eq_zero_or_pos n with rfl | hpos
          · exact absurd h41 (by simpa using hne)
          · omega
      · simp only [h41, if_false, Res.pure_eq, Res.ok.injEq]
        constructor
        · rintro rfl
          exact ⟨0, by omega, by omega, fun k hk => by omega, by omega, by simpa using h41⟩
        · rintro ⟨n, hn, rfl, hch, hq, hne⟩
          rcases Nat.eq_zero_or_pos n with rfl | hpos
          · omega
          · have := hch 0 hpos
            simp at this
            exact absurd this h41
    · rw [load_of_ge (by omega)]
      simp only [Res.fault_bind, reduceCtorEq, false_iff]
      rintro ⟨n, hn, rfl, hch, hq, hne⟩
      omega

/-- What `handle_packet` does on a frame of more than 14 bytes with version 4. -/
theorem handle_packet_v4 (ts : timeval) (mem : List uint8_t) (h14 : 14 < mem.length)
    (hv : byteAt mem 14 >>> 4 = 4) :
    handle_packet ts mem =
      if mem.length ≤ 23 then Res.fault
      else if byteAt mem 23 = 17 ∧ mem.length = 14 + (byteAt mem 14 &&& 15) * 4 + 56 then
        Res.ok (recordAt ts mem false 26 30 (14 + (byteAt mem 14 &&& 15) * 4))
      else Res.dropped := by
  simp only [handle_packet, handle_packet_ip_v4 mem h14 hv]
  by_cases h23 : mem.length ≤ 23
  · simp [h23]
  · by_cases hp : byteAt mem 23 = 17
    · by_cases hl : 14 + (byteAt mem 14 &&& 15) * 4 > mem.length
      · have : mem.length ≠ 14 + (byteAt mem 14 &&& 15) * 4 + 56 := by omega
        simp [h23, hp, hl, this]
      · simp only [h23, hp, hl, if_false, ne_eq, not_true_eq_false, Res.ok_bind, true_and]
        exact handle_packet_udp_eq ts mem false 26 30 _ (by omega) (by omega)
    · simp [h23, hp]

/-- When `handle_packet` accepts a frame of more than 14 bytes with version 6. -/
theorem handle_packet_v6_ok (ts : timeval) (mem : List uint8_t) (r : DissectedPacket)
    (h14 : 14 < mem.length) (hv : byteAt mem 14 >>> 4 = 6) :
    handle_packet ts mem = Res.ok r ↔
      ∃ n, chained mem 14 n ∧ byteAt mem (14 + 40 * n + 6) = 17 ∧
        mem.length = 14 + 40 * (n + 1) + 56 ∧
        r = recordAt ts mem true (14 + 40 * n + 8) (14 + 40 * n + 24) (14 + 40 * (n + 1)) := by
  simp only [handle_packet, handle_packet_ip_v6 mem h14 hv, Res.bind_eq_ok,
    skip_chained_ipv6_ok, load_eq_ok]
  constructor
  · rintro ⟨⟨src, dst, v6, packet⟩, ⟨q, ⟨n, hn, rfl, hch, hq, hne⟩, nh, ⟨_, hnh⟩, h3⟩, h4⟩
    by_cases h17 : nh = 17
    · subst h17
      by_cases hc : 14 + 40 * n + 40 > mem.length
      · simp [CHECK_PACKET_LEN, hc] at h3
      · simp only [CHECK_PACKET_LEN, hc, if_false, ne_eq, not_true_eq_false, Res.ok_bind,
          Res.pure_eq, Res.ok.injEq, Prod.mk.injEq] at h3
        obtain ⟨rfl, rfl, rfl, rfl⟩ := h3
        simp only at h4
        rw [handle_packet_udp_eq ts mem true _ _ _ (by omega) (by omega)] at h4
        by_cases hl : mem.length = 14 + 40 * n + 40 + 56
        · simp only [hl, if_true, Res.ok.injEq] at h4
          refine ⟨n, hch, hnh, by omega, ?_⟩
          rw [← h4, show 14 + 40 * (n + 1) = 14 + 40 * n + 40 by omega]
        · simp [hl] at h4
    · simp [h17] at h3
  · rintro ⟨n, hch, hnh, hl, rfl⟩
    refine ⟨(14 + 40 * n + 8, 14 + 40 * n + 24, true, 14 + 40 * n + 40),
      ⟨14 + 40 * n, ⟨n, by omega, rfl, hch, by omega, by omega⟩, 17, ⟨by omega, hnh⟩, ?_⟩, ?_⟩
    · have hc : ¬ (14 + 40 * n + 40 > mem.length) := by omega
      simp [CHECK_PACKET_LEN, hc]
    · simp only
      rw [handle_packet_udp_eq ts mem true _ _ _ (by omega) (by omega)]
      have hl2 : mem.length = 14 + 40 * n + 40 + 56 := by omega
      simp only [hl2, if_true]
      rw [show 14 + 40 * (n + 1) = 14 + 40 * n + 40 by omega]

theorem handle_packet_other (ts : timeval) (mem : List uint8_t) (h14 : 14 < mem.length)
    (h4 : byteAt mem 14 >>> 4 ≠ 4) (h6 : byteAt mem 14 >>> 4 ≠ 6) :
    handle_packet ts mem = Res.dropped := by
  simp [handle_packet, handle_packet_ip_other mem h14 h4 h6]

theorem handle_packet_short (ts : timeval) (mem : List uint8_t) (h : mem.length < 14) :
    handle_packet ts mem = Res.dropped := by
  simp [handle_packet, handle_packet_ip_short mem h]

theorem handle_packet_14 (ts : timeval) (mem : List uint8_t) (h : mem.length = 14) :
    handle_packet ts mem = Res.fault := by
  simp [handle_packet, handle_packet_ip_14 mem h]

theorem byteAt_append_left (mem extra : List uint8_t) (i : Nat) (h : i < mem.length) :
    byteAt (mem ++ extra) i = byteAt mem i := by
  simp [byteAt, List.getElem?_append_left h]

theorem handle_packet_ok_length (ts : timeval) (mem : List uint8_t) (r : DissectedPacket)
    (h : handle_packet ts mem = Res.ok r) : 14 < mem.length := by
  rcases Nat.lt_trichotomy mem.length 14 with hl | hl | hl
  · rw [handle_packet_short ts mem hl] at h; cases h
  · rw [handle_packet_14 ts mem hl] at h; cases h
  · exact hl

/-- Acceptance, in one statement. -/
theorem handle_packet_ok_iff (ts : timeval) (mem : List uint8_t) (r : DissectedPacket) :
    handle_packet ts mem = Res.ok r ↔
      (byteAt mem 14 >>> 4 = 4 ∧ byteAt mem 23 = 17 ∧
        mem.length = 14 + (byteAt mem 14 &&& 15) * 4 + 56 ∧
        r = recordAt ts mem false 26 30 (14 + (byteAt mem 14 &&& 15) * 4)) ∨
      (byteAt mem 14 >>> 4 = 6 ∧ ∃ n, chained mem 14 n ∧ byteAt mem (14 + 40 * n + 6) = 17 ∧
        mem.length = 14 + 40 * (n + 1) + 56 ∧
        r = recordAt ts mem true (14 + 40 * n + 8) (14 + 40 * n + 24) (14 + 40 * (n + 1))) := by
  by_cases h14 : 14 < mem.length
  · by_cases h4 : byteAt mem 14 >>> 4 = 4
    · have h6 : ¬ (byteAt mem 14 >>> 4 = 6) := by omega
      have e : ∀ q : Prop, ((byteAt mem 14 >>> 4 = 6 ∧ q) ↔ False) :=
        fun q => ⟨fun hq => h6 hq.1, False.elim⟩
      rw [handle_packet_v4 ts mem h14 h4, e, or_false]
      by_cases h23 : mem.length ≤ 23
      · rw [if_pos h23]
        constructor
        · intro h; cases h
        · rintro ⟨_, _, hl, _⟩
          omega
      · rw [if_neg h23]
        by_cases hc : byteAt mem 23 = 17 ∧ mem.length = 14 + (byteAt mem 14 &&& 15) * 4 + 56
        · rw [if_pos hc]
          constructor
          · intro h
            exact ⟨h4, hc.1, hc.2, (Res.ok.inj h).symm⟩
          · rintro ⟨_, _, _, rfl⟩
            rfl
        · rw [if_neg hc]
          constructor
          · intro h; cases h
          · rintro ⟨_, h1, h2, _⟩
            exact absurd ⟨h1, h2⟩ hc
    · by_cases h6 : byteAt mem 14 >>> 4 = 6
      · have e : ∀ q : Prop, ((byteAt mem 14 >>> 4 = 4 ∧ q) ↔ False) :=
          fun q => ⟨fun hq => h4 hq.1, False.elim⟩
        rw [handle_packet_v6_ok ts mem r h14 h6, e, false_or]
        constructor
        · intro h; exact ⟨h6, h⟩
        · intro h; exact h.2
      · rw [handle_packet_other ts mem h14 h4 h6]
        constructor
        · intro h; cases h
        · rintro (⟨h, _⟩ | ⟨h, _⟩)
          · exact absurd h h4
          · exact absurd h h6
  · constructor
    · intro h
      exact absurd (handle_packet_ok_length ts mem r h) h14
    · rintro (⟨_, _, hl, _⟩ | ⟨_, n, _, _, hl, _⟩) <;> omega

/-- No accepted frame is a proper beginning of another accepted frame. -/
theorem accept_no_extension (ts ts' : timeval) (mem extra : List uint8_t)
    (r r' : DissectedPacket) (h : handle_packet ts mem = Res.ok r)
    (h' : handle_packet ts' (mem ++ extra) = Res.ok r') : extra = [] := by
  have h14 := handle_packet_ok_length ts mem r h
  have hb : byteAt (mem ++ extra) 14 = byteAt mem 14 := byteAt_append_left mem extra 14 h14
  rw [handle_packet_ok_iff] at h h'
  rw [hb, List.length_append] at h'
  apply List.eq_nil_of_length_eq_zero
  rcases h with ⟨h4, _, hl, _⟩ | ⟨h6, n, hch, hn, hl, _⟩
  · rcases h' with ⟨_, _, hl', _⟩ | ⟨h6', _⟩
    · omega
    · omega
  · rcases h' with ⟨h4', _⟩ | ⟨_, m, hch', hm, hl', _⟩
    · omega
    · rcases Nat.lt_trichotomy m n with hmn | hmn | hmn
      · have e := byteAt_append_left mem extra (14 + 40 * m + 6) (by omega)
        have := hch m hmn
        omega
      · subst hmn; omega
      · have e := byteAt_append_left mem extra (14 + 40 * n + 6) (by omega)
        have := hch' n hmn
        omega

theorem handle_packet_udp_ok_length (ts : timeval) (mem : List uint8_t) (src dst : Nat)
    (v6 : Bool) (packet : Nat) (r : DissectedPacket)
    (h : handle_packet_udp ts mem src dst v6 packet = Res.ok r) :
    packet + 8 ≤ mem.length ∧ mem.length - (packet + 8) = 48 := by
  simp only [handle_packet_udp, CHECK_PACKET_LEN, sizeof_udp_hdr_t, sizeof_ntp_pkt_pkd_t] at h
  by_cases h8 : packet + 8 > mem.length
  · simp [h8] at h
  · by_cases h48 : mem.length - (packet + 8) = 48
    · omega
    · simp [h8, h48] at h

theorem byteAt_slice (mem : List uint8_t) (pkt n k : Nat) (hk : k < n) :
    byteAt ((mem.drop pkt).take n) k = byteAt mem (pkt + k) := by
  simp [byteAt, List.getElem?_take_of_lt hk, List.getElem?_drop]

theorem byteAt_set_ne (mem : List uint8_t) (i j : Nat) (x : uint8_t) (h : j ≠ i) :
    byteAt (mem.set j x) i = byteAt mem i := by
  simp [byteAt, List.getElem?_set_ne h]

theorem be16At_congr (m1 m2 : List uint8_t) (p1 p2 : Nat)
    (h : ∀ k, k < 2 → byteAt m1 (p1 + k) = byteAt m2 (p2 + k)) :
    be16At m1 p1 = be16At m2 p2 := by
  have h0 := h 0 (by omega)
  have h1 := h 1 (by omega)
  simp only [Nat.add_zero] at h0
  simp only [be16At, h0, h1]

theorem be32At_congr (m1 m2 : List uint8_t) (p1 p2 : Nat)
    (h : ∀ k, k < 4 → byteAt m1 (p1 + k) = byteAt m2 (p2 + k)) :
    be32At m1 p1 = be32At m2 p2 := by
  have h0 := h 0 (by omega)
  have h1 := h 1 (by omega)
  have h2 := h 2 (by omega)
  have h3 := h 3 (by omega)
  simp only [Nat.add_zero] at h0
  simp only [be32At, h0, h1, h2, h3]

theorem be64At_congr (m1 m2 : List uint8_t) (p1 p2 : Nat)
    (h : ∀ k, k < 8 → byteAt m1 (p1 + k) = byteAt m2 (p2 + k)) :
    be64At m1 p1 = be64At m2 p2 := by
  have e0 : be32At m1 p1 = be32At m2 p2 :=
    be32At_congr m1 m2 p1 p2 (fun k hk => h k (by omega))
  have e1 : be32At m1 (p1 + 4) = be32At m2 (p2 + 4) :=
    be32At_congr m1 m2 (p1 + 4) (p2 + 4) (fun k hk => by
      have := h (4 + k) (by omega)
      rwa [← Nat.add_assoc, ← Nat.add_assoc] at this)
  simp only [be64At, e0, e1]

theorem ntpAt_congr (m1 m2 : List uint8_t) (p1 p2 : Nat)
    (h : ∀ k, k < 48 → byteAt m1 (p1 + k) = byteAt m2 (p2 + k)) :
    ntpAt m1 p1 = ntpAt m2 p2 := by
  have sh : ∀ a k, a + k < 48 → byteAt m1 (p1 + a + k) = byteAt m2 (p2 + a + k) := by
    intro a k hk
    have := h (a + k) hk
    rwa [← Nat.add_assoc, ← Nat.add_assoc] at this
  have h0 := h 0 (by omega)
  simp only [Nat.add_zero] at h0
  have e4 := be32At_congr m1 m2 (p1 + 4) (p2 + 4) (fun k hk => sh 4 k (by omega))
  have e8 := be32At_congr m1 m2 (p1 + 8) (p2 + 8) (fun k hk => sh 8 k (by omega))
  have e12 := be32At_congr m1 m2 (p1 + 12) (p2 + 12) (fun k hk => sh 12 k (by omega))
  have e16 := be64At_congr m1 m2 (p1 + 16) (p2 + 16) (fun k hk => sh 16 k (by omega))
  have e24 := be64At_congr m1 m2 (p1 + 24) (p2 + 24) (fun k hk => sh 24 k (by omega))
  have e32 := be64At_congr m1 m2 (p1 + 32) (p2 + 32) (fun k hk => sh 32 k (by omega))
  have e40 := be64At_congr m1 m2 (p1 + 40) (p2 + 40) (fun k hk => sh 40 k (by omega))
  simp only [ntpAt, h0, h 1 (by omega), h 2 (by omega), h 3 (by omega), e4, e8, e12, e16, e24,
    e32, e40]

theorem bytesAt_congr (m1 m2 : List uint8_t) (n : Nat) :
    ∀ p1 p2, (∀ k, k < n → byteAt m1 (p1 + k) = byteAt m2 (p2 + k)) →
      bytesAt m1 p1 n = bytesAt m2 p2 n := by
  induction n with
  | zero => intro _ _ _; rfl
  | succ n ih =>
    intro p1 p2 h
    have h0 := h 0 (by omega)
    simp only [Nat.add_zero] at h0
    have e := ih (p1 + 1) (p2 + 1) (fun k hk => by
      have := h (1 + k) (by omega)
      rwa [← Nat.add_assoc, ← Nat.add_assoc] at this)
    simp only [bytesAt, h0, e]

/-- The record depends only on the address bytes, the four port bytes and the
48 message bytes. -/
theorem recordAt_congr (ts : timeval) (m1 m2 : List uint8_t) (v6 : Bool) (src dst packet : Nat)
    (hsrc : ∀ k, k < (if v6 then 16 else 4) → byteAt m1 (src + k) = byteAt m2 (src + k))
    (hdst : ∀ k, k < (if v6 then 16 else 4) → byteAt m1 (dst + k) = byteAt m2 (dst + k))
    (hport : ∀ k, k < 4 → byteAt m1 (packet + k) = byteAt m2 (packet + k))
    (hntp : ∀ k, k < 48 → byteAt m1 (packet + 8 + k) = byteAt m2 (packet + 8 + k)) :
    recordAt ts m1 v6 src dst packet = recordAt ts m2 v6 src dst packet := by
  have e1 := bytesAt_congr m1 m2 _ src src hsrc
  have e2 := bytesAt_congr m1 m2 _ dst dst hdst
  have e3 := be16At_congr m1 m2 packet packet (fun k hk => hport k (by omega))
  have e4 := be16At_congr m1 m2 (packet + 2) (packet + 2) (fun k hk => by
    have := hport (2 + k) (by omega)
    rwa [← Nat.add_assoc] at this)
  have e5 := ntpAt_congr m1 m2 (packet + 8) (packet + 8) hntp
  simp only [recordAt, e1, e2, e3, e4, e5]

theorem parse_ntp_packet_slice (mem : List uint8_t) (pkt : Nat) (h : pkt + 48 ≤ mem.length) :
    parse_ntp_packet ((mem.drop pkt).take 48) 0 = Res.ok (ntpAt mem pkt) := by
  have hl : 0 + 48 ≤ ((mem.drop pkt).take 48).length := by
    simp only [List.length_take, List.length_drop]; omega
  have e := parse_ntp_packet_of_le _ 0 hl
  have e2 : ntpAt ((mem.drop pkt).take 48) 0 = ntpAt mem pkt :=
    ntpAt_congr _ _ 0 pkt (fun k hk => by
      rw [Nat.zero_add]; exact byteAt_slice mem pkt 48 k hk)
  rw [← e2]
  exact e

/-- The header that ends a chain is determined by the frame. -/
theorem chained_unique (mem : List uint8_t) (p n m : Nat) (hn : chained mem p n)
    (hm : chained mem p m) (hn1 : byteAt mem (p + 40 * n + 6) ≠ 41)
    (hm1 : byteAt mem (p + 40 * m + 6) ≠ 41) : n = m := by
  rcases Nat.lt_trichotomy n m with h | h | h
  · exact absurd (hm n h) hn1
  · exact h
  · exact absurd (hn m h) hm1

theorem nibbles_of_or (h : Nat) (h15 : h ≤ 15) :
    (0x40 ||| h) >>> 4 = 4 ∧ (0x40 ||| h) &&& 15 = h := by
  interval_cases h <;> decide

theorem pref_rank_eq (name : String) :
    pref_rank name = if name = "adapter_unsynced" then 0 else if name = "adapter" then 1
      else if name = "host" then 2 else 3 := by
  by_cases h0 : name = "adapter_unsynced"
  · subst h0; decide
  · by_cases h1 : name = "adapter"
    · subst h1; decide
    · by_cases h2 : name = "host"
      · subst h2; decide
      · have e0 : ("adapter_unsynced" == name) = false := by simpa using Ne.symm h0
        have e1 : ("adapter" == name) = false := by simpa using Ne.symm h1
        have e2 : ("host" == name) = false := by simpa using Ne.symm h2
        simp [pref_rank, tstamp_type_pref, List.indexOf, List.findIdx_cons, h0, h1, h2, e0, e1, e2]

/-- One run of the inner loop without a user preference: the state changes
exactly when the name has a lower index in the table than `pref_idx`. -/
theorem tstamp_inner_none (name : String) (ty : Int) (k : Nat) (t : Int) (hk : k ≤ 3) :
    tstamp_inner none name ty (tstamp_type_pref.length + 1) 0 { pref_idx := k, pref_type := t }
      = Res.ok (if pref_rank name < k then { pref_idx := pref_rank name, pref_type := ty }
          else { pref_idx := k, pref_type := t }) := by
  rw [pref_rank_eq]
  have hlen : tstamp_type_pref.length + 1 = 4 := rfl
  rw [hlen]
  by_cases h0 : name = "adapter_unsynced"
  · subst h0
    interval_cases k <;> simp [tstamp_inner, tstamp_body, tstamp_type_pref]
  · by_cases h1 : name = "adapter"
    · subst h1
      interval_cases k <;> simp [tstamp_inner, tstamp_body, tstamp_type_pref]
    · by_cases h2 : name = "host"
      · subst h2
        interval_cases k <;> simp [tstamp_inner, tstamp_body, tstamp_type_pref]
      · have e0 : ¬ ("adapter_unsynced" = name) := fun h => h0 h.symm
        have e1 : ¬ ("adapter" = name) := fun h => h1 h.symm
        have e2 : ¬ ("host" = name) := fun h => h2 h.symm
        interval_cases k <;>
          simp [tstamp_inner, tstamp_body, tstamp_type_pref, h0, h1, h2, e0, e1, e2]

theorem pref_rank_le (name : String) : pref_rank name ≤ 3 := by
  rw [pref_rank_eq]; split_ifs <;> omega

/-- The outer loop without a user preference, from any state with `pref_idx`
at most 3. -/
theorem tstamp_outer_none (val_to_name : Int → String) (tys : List Int) :
    ∀ (k : Nat) (t : Int), k ≤ 3 →
      ∃ (k' : Nat) (t' : Int),
        tstamp_outer val_to_name none tys { pref_idx := k, pref_type := t }
          = Res.ok { pref_idx := k', pref_type := t' } ∧
        k' ≤ k ∧ (∀ ty, ty ∈ tys → k' ≤ pref_rank (val_to_name ty)) ∧
        ((k' = k ∧ t' = t) ∨ (t' ∈ tys ∧ pref_rank (val_to_name t') = k')) := by
  induction tys with
  | nil =>
    intro k t _
    exact ⟨k, t, rfl, Nat.le_refl k, fun ty h => (by cases h), Or.inl ⟨rfl, rfl⟩⟩
  | cons ty rest ih =>
    intro k t hk
    simp only [tstamp_outer, tstamp_inner_none (val_to_name ty) ty k t hk, Res.ok_bind]
    by_cases hr : pref_rank (val_to_name ty) < k
    · simp only [hr, if_true]
      obtain ⟨k', t', h1, h2, h3, h4⟩ := ih (pref_rank (val_to_name ty)) ty (by omega)
      refine ⟨k', t', h1, by omega, ?_, ?_⟩
      · intro x hx
        rcases List.mem_cons.mp hx with rfl | hx
        · exact h2
        · exact h3 x hx
      · rcases h4 with ⟨e1, e2⟩ | ⟨e1, e2⟩
        · right
          subst e1 e2
          exact ⟨List.mem_cons_self _ _, rfl⟩
        · right
          exact ⟨List.mem_cons_of_mem _ e1, e2⟩
    · simp only [hr, if_false]
      obtain ⟨k', t', h1, h2, h3, h4⟩ := ih k t hk
      refine ⟨k', t', h1, h2, ?_, ?_⟩
      · intro x hx
        rcases List.mem_cons.mp hx with rfl | hx
        · omega
        · exact h3 x hx
      · rcases h4 with h4 | ⟨e1, e2⟩
        · exact Or.inl h4
        · exact Or.inr ⟨List.mem_cons_of_mem _ e1, e2⟩

theorem val_ofNat_256 (a : Nat) : (Fin.ofNat a : uint8_t).val = a % 256 := rfl

theorem ofNat_val_256 (a : uint8_t) : (Fin.ofNat a.val : uint8_t) = a := by
  apply Fin.ext; rw [val_ofNat_256]; omega

theorem put_u32be_be (a b c d : uint8_t) :
    put_u32be (a.val * 2 ^ 24 + b.val * 2 ^ 16 + c.val * 2 ^ 8 + d.val) = [a, b, c, d] := by
  have ha := a.isLt
  have hb := b.isLt
  have hc := c.isLt
  have hd := d.isLt
  simp only [put_u32be, List.cons.injEq, and_true]
  refine ⟨?_, ?_, ?_, ?_⟩ <;> apply Fin.ext <;> rw [val_ofNat_256] <;> omega

theorem put_u32be_low (x y : Nat) : put_u32be (x * 2 ^ 32 + y) = put_u32be y := by
  simp only [put_u32be, List.cons.injEq, and_true]
  refine ⟨?_, ?_, ?_, ?_⟩ <;> apply Fin.ext <;> rw [val_ofNat_256, val_ofNat_256] <;> omega

theorem byteAt_drop (mem : List uint8_t) (p k : Nat) :
    byteAt (mem.drop p) k = byteAt mem (p + k) := by
  simp [byteAt, List.getElem?_drop]

theorem put_u8_slice (mem : List uint8_t) (p : Nat) (h : p + 1 ≤ mem.length) :
    [(Fin.ofNat (byteAt mem p) : uint8_t)] = (mem.drop p).take 1 := by
  have e0 : byteAt mem p = byteAt (mem.drop p) 0 := by rw [byteAt_drop]; rfl
  have hl : 1 ≤ (mem.drop p).length := by rw [List.length_drop]; omega
  rw [e0]
  match mem.drop p, hl with
  | a :: rest, _ =>
    simp only [byteAt, List.getD_cons_zero, ofNat_val_256, List.take_succ_cons, List.take_zero]

theorem put_u32be_slice (mem : List uint8_t) (p : Nat) (h : p + 4 ≤ mem.length) :
    put_u32be (be32At mem p) = (mem.drop p).take 4 := by
  have e : be32At mem p = be32At (mem.drop p) 0 :=
    be32At_congr _ _ _ _ (fun k _ => by rw [byteAt_drop, Nat.zero_add])
  have hl : 4 ≤ (mem.drop p).length := by rw [List.length_drop]; omega
  rw [e]
  match mem.drop p, hl with
  | a :: b :: c :: d :: rest, _ =>
    simp only [be32At, byteAt, Nat.zero_add, List.getD_cons_zero, List.getD_cons_succ,
      put_u32be_be, List.take_succ_cons, List.take_zero]

theorem put_u64be_slice (mem : List uint8_t) (p : Nat) (h : p + 8 ≤ mem.length) :
    put_u64be (be64At mem p) = (mem.drop p).take 8 := by
  have hq : (be32At mem p * 2 ^ 32 + be32At mem (p + 4)) / 2 ^ 32 = be32At mem p := by
    have := be32At_lt mem (p + 4)
    omega
  rw [put_u64be, be64At, hq, put_u32be_low, put_u32be_slice mem p (by omega),
    put_u32be_slice mem (p + 4) (by omega), ← List.drop_drop, ← List.take_add]

theorem slice_append (mem : List uint8_t) (a b : Nat) :
    mem.take a ++ (mem.drop a).take b = mem.take (a + b) := by
  rw [List.take_add]

/-- Encoding what is decoded from 48 bytes gives the bytes back. -/
theorem encode_parse (mem : List uint8_t) (h : mem.length = 48) :
    ∃ n, parse_ntp_packet mem 0 = Res.ok n ∧ encode_ntp_packet n = mem := by
  refine ⟨_, parse_ntp_packet_of_le mem 0 (by omega), ?_⟩
  have c0 := put_u8_slice mem 0 (by omega)
  have c1 := put_u8_slice mem 1 (by omega)
  have c2 := put_u8_slice mem 2 (by omega)
  have c3 := put_u8_slice mem 3 (by omega)
  have e : ∀ a b c d : uint8_t, [a, b, c, d] = [a] ++ [b] ++ [c] ++ [d] := fun _ _ _ _ => rfl
  simp only [encode_ntp_packet, Nat.zero_add, e]
  rw [c0, c1, c2, c3, put_u32be_slice mem 4 (by omega), put_u32be_slice mem 8 (by omega),
    put_u32be_slice mem 12 (by omega), put_u64be_slice mem 16 (by omega),
    put_u64be_slice mem 24 (by omega), put_u64be_slice mem 32 (by omega),
    put_u64be_slice mem 40 (by omega)]
  simp only [List.drop_zero, slice_append, Nat.reduceAdd]
  exact List.take_of_length_le (by omega)

theorem be32_of_octets (v : Nat) (h : v < 2 ^ 32) :
    v / 2 ^ 24 % 256 * 2 ^ 24 + v / 2 ^ 16 % 256 * 2 ^ 16 + v / 2 ^ 8 % 256 * 2 ^ 8 + v % 256
      = v := by
  omega

theorem be64_of_octets (v : Nat) (h : v < 2 ^ 64) :
    (v / 2 ^ 32 / 2 ^ 24 % 256 * 2 ^ 24 + v / 2 ^ 32 / 2 ^ 16 % 256 * 2 ^ 16
        + v / 2 ^ 32 / 2 ^ 8 % 256 * 2 ^ 8 + v / 2 ^ 32 % 256) * 2 ^ 32
      + (v / 2 ^ 24 % 256 * 2 ^ 24 + v / 2 ^ 16 % 256 * 2 ^ 16 + v / 2 ^ 8 % 256 * 2 ^ 8
        + v % 256) = v := by
  omega

/-- Decoding the encoding of in-range field values gives the values back. -/
theorem parse_encode (n : ntp_pkt_t) (hn : n.inRange) :
    parse_ntp_packet (encode_ntp_packet n) 0 = Res.ok n := by
  have hlen : 0 + 48 ≤ (encode_ntp_packet n).length := by
    simp [encode_ntp_packet, put_u64be, put_u32be]
  rw [parse_ntp_packet_of_le _ _ hlen]
  obtain ⟨h0, h1, h2, h3, h4, h5, h6, h7, h8, h9, h10⟩ := hn
  cases n
  simp only [Nat.zero_add, be64At, be32At, byteAt, encode_ntp_packet, put_u64be, put_u32be,
    List.cons_append, List.nil_append, List.getD_cons_zero, List.getD_cons_succ, val_ofNat_256]
    at *
  rw [be32_of_octets _ h4, be32_of_octets _ h5, be32_of_octets _ h6, be64_of_octets _ h7,
    be64_of_octets _ h8, be64_of_octets _ h9, be64_of_octets _ h10,
    Nat.mod_eq_of_lt (show _ < 256 from h0), Nat.mod_eq_of_lt (show _ < 256 from h1),
    Nat.mod_eq_of_lt (show _ < 256 from h2), Nat.mod_eq_of_lt (show _ < 256 from h3)]

/-- One run of the inner loop, with or without a user preference, from a state
with `pref_idx` between -1 and 3: it ends, `pref_idx` stays in that range, and
it is 3 afterwards exactly when it was 3 before and the name is neither in
the table nor the user's choice. -/
theorem tstamp_inner_range (user : Option String) (name : String) (ty : Int) (s : tstamp_sel)
    (h1 : -1 ≤ s.pref_idx) (h2 : s.pref_idx ≤ 3) :
    ∃ s', tstamp_inner user name ty (tstamp_type_pref.length + 1) 0 s = Res.ok s' ∧
      -1 ≤ s'.pref_idx ∧ s'.pref_idx ≤ 3 ∧
      (s'.pref_idx = 3 ↔ s.pref_idx = 3 ∧ name ∉ tstamp_type_pref ∧ user ≠ some name) := by
  have hlen : tstamp_type_pref.length + 1 = 4 := rfl
  rw [hlen]
  obtain ⟨k, t⟩ := s
  simp only at h1 h2
  have hk : k = -1 ∨ k = 0 ∨ k = 1 ∨ k = 2 ∨ k = 3 := by omega
  by_cases n0 : name = "adapter_unsynced"
  · subst n0
    rcases hk with rfl | rfl | rfl | rfl | rfl <;> rcases user with _ | u <;>
      simp [tstamp_inner, tstamp_body, tstamp_type_pref]
  · by_cases n1 : name = "adapter"
    · subst n1
      rcases hk with rfl | rfl | rfl | rfl | rfl <;> rcases user with _ | u <;>
        simp [tstamp_inner, tstamp_body, tstamp_type_pref] <;> split <;> simp
    · by_cases n2 : name = "host"
      · subst n2
        rcases hk with rfl | rfl | rfl | rfl | rfl <;> rcases user with _ | u <;>
          simp [tstamp_inner, tstamp_body, tstamp_type_pref] <;> split <;> simp
      · have e0 : ¬ ("adapter_unsynced" = name) := fun h => n0 h.symm
        have e1 : ¬ ("adapter" = name) := fun h => n1 h.symm
        have e2 : ¬ ("host" = name) := fun h => n2 h.symm
        rcases user with _ | u
        · rcases hk with rfl | rfl | rfl | rfl | rfl <;>
            simp [tstamp_inner, tstamp_body, tstamp_type_pref, n0, n1, n2, e0, e1, e2]
        · by_cases hu : name = u
          · subst hu
            rcases hk with rfl | rfl | rfl | rfl | rfl <;>
              simp [tstamp_inner, tstamp_body, tstamp_type_pref, n0, n1, n2, e0, e1, e2]
          · have hu2 : ¬ (u = name) := fun h => hu h.symm
            rcases hk with rfl | rfl | rfl | rfl | rfl <;>
              simp [tstamp_inner, tstamp_body, tstamp_type_pref, n0, n1, n2, e0, e1, e2, hu, hu2]

/-- The outer loop, with or without a user preference, from a state with
`pref_idx` between -1 and 3: it ends, and `pref_idx` is 3 afterwards exactly
when it was 3 before and no supported name is in the table or is the user's
choice. -/
theorem tstamp_outer_range (val_to_name : Int → String) (user : Option String)
    (tys : List Int) :
    ∀ s : tstamp_sel, -1 ≤ s.pref_idx → s.pref_idx ≤ 3 →
      ∃ s', tstamp_outer val_to_name user tys s = Res.ok s' ∧
        -1 ≤ s'.pref_idx ∧ s'.pref_idx ≤ 3 ∧
        (s'.pref_idx = 3 ↔ s.pref_idx = 3 ∧
          ∀ ty, ty ∈ tys → val_to_name ty ∉ tstamp_type_pref ∧ user ≠ some (val_to_name ty)) := by
  induction tys with
  | nil =>
    intro s h1 h2
    exact ⟨s, rfl, h1, h2, ⟨fun h => ⟨h, fun ty hty => (by cases hty)⟩, fun h => h.1⟩⟩
  | cons ty rest ih =>
    intro s h1 h2
    obtain ⟨s1, e1, a1, b1, c1⟩ := tstamp_inner_range user (val_to_name ty) ty s h1 h2
    obtain ⟨s2, e2, a2, b2, c2⟩ := ih s1 a1 b1
    refine ⟨s2, ?_, a2, b2, ?_⟩
    · simp only [tstamp_outer, e1, Res.ok_bind, e2]
    · rw [c2, c1]
      constructor
      · rintro ⟨⟨h3, hn, hu⟩, hr⟩
        refine ⟨h3, ?_⟩
        intro x hx
        rcases List.mem_cons.mp hx with rfl | hx
        · exact ⟨hn, hu⟩
        · exact hr x hx
      · rintro ⟨h3, hall⟩
        exact ⟨⟨h3, hall ty (List.mem_cons_self _ _)⟩,
          fun x hx => hall x (List.mem_cons_of_mem _ hx)⟩

theorem byteAt_of_ge (mem : List uint8_t) (i : Nat) (h : mem.length ≤ i) : byteAt mem i = 0 := by
  simp [byteAt, List.getElem?_eq_none h]

/-- Two frames of equal length that agree on the captured bytes outside the
range from `lo` to `hi` agree on every byte value outside it. -/
theorem byteAt_eq_outside (m1 m2 : List uint8_t) (lo hi : Nat) (hlen : m1.length = m2.length)
    (hsame : ∀ i, i < m1.length → (i < lo ∨ hi ≤ i) → byteAt m1 i = byteAt m2 i) :
    ∀ i, (i < lo ∨ hi ≤ i) → byteAt m1 i = byteAt m2 i := by
  intro i hi'
  by_cases h : i < m1.length
  · exact hsame i h hi'
  · rw [byteAt_of_ge m1 i (by omega), byteAt_of_ge m2 i (by omega)]

theorem udp_header_at_transfer (m1 m2 : List uint8_t) (u : Nat)
    (hsame : ∀ i, (i < u + 4 ∨ u + 8 ≤ i) → byteAt m1 i = byteAt m2 i)
    (hu : udp_header_at m1 u) : udp_header_at m2 u := by
  rcases hu with ⟨h4, h5, rfl⟩ | ⟨h6, n, hch, hne, rfl⟩
  · have e := hsame 14 (by omega)
    left
    rw [← e]
    exact ⟨h4, h5, rfl⟩
  · have e := hsame 14 (by omega)
    right
    rw [← e]
    refine ⟨h6, n, ?_, ?_, rfl⟩
    · intro k hk
      rw [← hsame (14 + 40 * k + 6) (by omega)]
      exact hch k hk
    · rw [← hsame (14 + 40 * n + 6) (by omega)]
      exact hne

theorem udp_fields_transfer (ts : timeval) (m1 m2 : List uint8_t) (u : Nat)
    (r : DissectedPacket) (hlen : m1.length = m2.length) (hu : udp_header_at m1 u)
    (hsame : ∀ i, (i < u + 4 ∨ u + 8 ≤ i) → byteAt m1 i = byteAt m2 i)
    (h : handle_packet ts m1 = Res.ok r) : handle_packet ts m2 = Res.ok r := by
  rw [handle_packet_ok_iff] at h ⊢
  have e14 := hsame 14 (by rcases hu with ⟨_, _, rfl⟩ | ⟨_, n, _, _, rfl⟩ <;> omega)
  rcases hu with ⟨h4, h5, rfl⟩ | ⟨h6, n, hch, hne, rfl⟩
  · rcases h with ⟨_, hp, hl, rfl⟩ | ⟨h6, _⟩
    · left
      rw [← e14, ← hsame 23 (by omega), ← hlen]
      refine ⟨h4, hp, hl, ?_⟩
      apply recordAt_congr
      · intro k hk; simp only [Bool.false_eq_true, if_false] at hk; exact hsame _ (by omega)
      · intro k hk; simp only [Bool.false_eq_true, if_false] at hk; exact hsame _ (by omega)
      · intro k hk; exact hsame _ (by omega)
      · intro k hk; exact hsame _ (by omega)
    · omega
  · rcases h with ⟨h4, _⟩ | ⟨_, m, hchm, hm, hl, rfl⟩
    · omega
    · have e : m = n := chained_unique m1 14 m n hchm hch (by omega) hne
      subst e
      right
      rw [← e14, ← hlen]
      refine ⟨h6, m, ?_, ?_, hl, ?_⟩
      · intro k hk
        rw [← hsame (14 + 40 * k + 6) (by omega)]
        exact hch k hk
      · rw [← hsame (14 + 40 * m + 6) (by omega)]
        exact hm
      · apply recordAt_congr
        · intro k hk; simp only [if_true] at hk; exact hsame _ (by omega)
        · intro k hk; simp only [if_true] at hk; exact hsame _ (by omega)
        · intro k hk; exact hsame _ (by omega)
        · intro k hk; exact hsame _ (by omega)

theorem get_u8_fault {mem : List uint8_t} {p : Nat} (h : mem.length ≤ p) :
    get_u8 mem p = Res.fault := by
  simp [get_u8, load_of_ge h]

theorem get_u32be_fault {mem : List uint8_t} {p : Nat} (h : mem.length < p + 4) :
    get_u32be mem p = Res.fault := by
  by_cases h0 : mem.length ≤ p
  · simp [get_u32be, get_u8_fault h0]
  · have e0 : get_u8 mem p = Res.ok (byteAt mem p, p + 1) := get_u8_of_lt (by omega)
    by_cases h1 : mem.length ≤ p + 1
    · simp [get_u32be, e0, get_u8_fault h1]
    · have e1 : get_u8 mem (p + 1) = Res.ok (byteAt mem (p + 1), p + 2) :=
        get_u8_of_lt (by omega)
      by_cases h2 : mem.length ≤ p + 2
      · simp [get_u32be, e0, e1, get_u8_fault h2]
      · have e2 : get_u8 mem (p + 2) = Res.ok (byteAt mem (p + 2), p + 3) :=
          get_u8_of_lt (by omega)
        have h3 : mem.length ≤ p + 3 := by omega
        simp [get_u32be, e0, e1, e2, get_u8_fault h3]

theorem get_u64be_fault {mem : List uint8_t} {p : Nat} (h : mem.length < p + 8) :
    get_u64be mem p = Res.fault := by
  by_cases h0 : mem.length < p + 4
  · simp [get_u64be, get_u32be_fault h0]
  · have e0 : get_u32be mem p = Res.ok (be32At mem p, p + 4) := get_u32be_of_le (by omega)
    have e1 : get_u32be mem (p + 4) = Res.fault := get_u32be_fault (by omega)
    simp [get_u64be, e0, e1]

/-- With fewer than 48 bytes from `pkt` on in bounds `parse_ntp_packet` makes a
read that is out of bounds. -/
theorem parse_ntp_packet_fault (mem : List uint8_t) (pkt : Nat) (h : mem.length < pkt + 48) :
    parse_ntp_packet mem pkt = Res.fault := by
  by_cases c0 : mem.length ≤ pkt
  · have f0 : get_u8 mem pkt = Res.fault := get_u8_fault (by omega)
    simp only [parse_ntp_packet, f0, Res.ok_bind, Res.fault_bind]
  · have e0 : get_u8 mem pkt = Res.ok (byteAt mem pkt, pkt + 1) :=
      get_u8_of_lt (by omega)
    by_cases c1 : mem.length ≤ pkt + 1
    · have f1 : get_u8 mem (pkt + 1) = Res.fault := get_u8_fault (by omega)
      simp only [parse_ntp_packet, e0, f1, Res.ok_bind, Res.fault_bind]
    · have e1 : get_u8 mem (pkt + 1) = Res.ok (byteAt mem (pkt + 1), pkt + 2) :=
        get_u8_of_lt (by omega)
      by_cases c2 : mem.length ≤ pkt + 2
      · have f2 : get_u8 mem (pkt + 2) = Res.fault := get_u8_fault (by omega)
        simp only [parse_ntp_packet, e0, e1, f2, Res.ok_bind, Res.fault_bind]
      · have e2 : get_u8 mem (pkt + 2) = Res.ok (byteAt mem (pkt + 2), pkt + 3) :=
          get_u8_of_lt (by omega)
        by_cases c3 : mem.length ≤ pkt + 3
        · have f3 : get_u8 mem (pkt + 3) = Res.fault := get_u8_fault (by omega)
          simp only [parse_ntp_packet, e0, e1, e2, f3, Res.ok_bind, Res.fault_bind]
        · have e3 : get_u8 mem (pkt + 3) = Res.ok (byteAt mem (pkt + 3), pkt + 4) :=
            get_u8_of_lt (by omega)
          by_cases c4 : mem.length < pkt + 8
          · have f4 : get_u32be mem (pkt + 4) = Res.fault := get_u32be_fault (by omega)
            simp only [parse_ntp_packet, e0, e1, e2, e3, f4, Res.ok_bind, Res.fault_bind]
          · have e4 : get_u32be mem (pkt + 4) = Res.ok (be32At mem (pkt + 4), pkt + 8) :=
              get_u32be_of_le (by omega)
            by_cases c5 : mem.length < pkt + 12
            · have f5 : get_u32be mem (pkt + 8) = Res.fault := get_u32be_fault (by omega)
              simp only [parse_ntp_packet, e0, e1, e2, e3, e4, f5, Res.ok_bind, Res.fault_bind]
            · have e5 : get_u32be mem (pkt + 8) = Res.ok (be32At mem (pkt + 8), pkt + 12) :=
                get_u32be_of_le (by omega)
              by_cases c6 : mem.length < pkt + 16
              · have f6 : get_u32be mem (pkt + 12) = Res.fault := get_u32be_fault (by omega)
                simp only [parse_ntp_packet, e0, e1, e2, e3, e4, e5, f6, Res.ok_bind, Res.fault_bind]
              · have e6 : get_u32be mem (pkt + 12) = Res.ok (be32At mem (pkt + 12), pkt + 16) :=
                  get_u32be_of_le (by omega)
                by_cases c7 : mem.length < pkt + 24
                · have f7 : get_u64be mem (pkt + 16) = Res.fault := get_u64be_fault (by omega)
                  simp only [parse_ntp_packet, e0, e1, e2, e3, e4, e5, e6, f7, Res.ok_bind, Res.fault_bind]
                · have e7 : get_u64be mem (pkt + 16) = Res.ok (be64At mem (pkt + 16), pkt + 24) :=
                    get_u64be_of_le (by omega)
                  by_cases c8 : mem.length < pkt + 32
                  · have f8 : get_u64be mem (pkt + 24) = Res.fault := get_u64be_fault (by omega)
                    simp only [parse_ntp_packet, e0, e1, e2, e3, e4, e5, e6, e7, f8, Res.ok_bind, Res.fault_bind]
                  · have e8 : get_u64be mem (pkt + 24) = Res.ok (be64At mem (pkt + 24), pkt + 32) :=
                      get_u64be_of_le (by omega)
                    by_cases c9 : mem.length < pkt + 40
                    · have f9 : get_u64be mem (pkt + 32) = Res.fault := get_u64be_fault (by omega)
                      simp only [parse_ntp_packet, e0, e1, e2, e3, e4, e5, e6, e7, e8, f9, Res.ok_bind, Res.fault_bind]
                    · have e9 : get_u64be mem (pkt + 32) = Res.ok (be64At mem (pkt + 32), pkt + 40) :=
                        get_u64be_of_le (by omega)
                      have f10 : get_u64be mem (pkt + 40) = Res.fault := get_u64be_fault (by omega)
                      simp only [parse_ntp_packet, e0, e1, e2, e3, e4, e5, e6, e7, e8, e9, f10, Res.ok_bind, Res.fault_bind]

/-- When the first part of `handle_packet` ends with a cursor, the frame has
more than 14 bytes, the cursor is within the captured length and the address
pointers lie before it. -/
theorem handle_packet_ip_ok_shape (mem : List uint8_t) (src dst : Nat) (v6 : Bool)
    (packet : Nat) (h : handle_packet_ip mem = Res.ok (src, dst, v6, packet)) :
    14 < mem.length ∧ packet ≤ mem.length ∧ src + 16 ≤ packet + 56 ∧ dst + 16 ≤ packet + 56 := by
  rcases Nat.lt_trichotomy mem.length 14 with hl | hl | hl
  · rw [handle_packet_ip_short mem hl] at h; cases h
  · rw [handle_packet_ip_14 mem hl] at h; cases h
  · by_cases h4 : byteAt mem 14 >>> 4 = 4
    · rw [handle_packet_ip_v4 mem hl h4] at h
      split_ifs at h with c1 c2 c3
      simp only [Res.ok.injEq, Prod.mk.injEq] at h
      obtain ⟨rfl, rfl, _, rfl⟩ := h
      exact ⟨hl, by omega, by omega, by omega⟩
    · by_cases h6 : byteAt mem 14 >>> 4 = 6
      · rw [handle_packet_ip_v6 mem hl h6] at h
        simp only [Res.bind_eq_ok] at h
        obtain ⟨q, _, nh, _, h3⟩ := h
        by_cases h17 : nh = 17
        · by_cases hc : q + 40 > mem.length
          · simp [h17, CHECK_PACKET_LEN, hc] at h3
          · simp only [h17, CHECK_PACKET_LEN, hc, if_false, ne_eq, not_true_eq_false,
              Res.ok_bind, Res.pure_eq, Res.ok.injEq, Prod.mk.injEq] at h3
            obtain ⟨rfl, rfl, _, rfl⟩ := h3
            exact ⟨hl, by omega, by omega, by omega⟩
        · simp [h17] at h3
      · rw [handle_packet_ip_other mem hl h4 h6] at h; cases h

/-- The counter does not change the result of the loop. -/
theorem skip_chained_ipv6_count_fst (mem : List uint8_t) :
    ∀ fuel p, (skip_chained_ipv6_count mem fuel p).1 = skip_chained_ipv6 mem fuel p := by
  intro fuel
  induction fuel with
  | zero => intro p; rfl
  | succ fuel ih =>
    intro p
    simp only [skip_chained_ipv6_count, skip_chained_ipv6]
    cases hl : load mem (p + ipv6_off_nexthdr) with
    | fault => rfl
    | timeout => rfl
    | dropped => rfl
    | ok nexthdr =>
      simp only [Res.ok_bind]
      by_cases h41 : nexthdr = IPPROTO_IPV6
      · simp only [h41, if_true, CHECK_PACKET_LEN]
        by_cases hc : p + sizeof_ipv6_hdr_t > mem.length
        · simp only [hc, if_true, Res.dropped_bind]
        · simp only [hc, if_false, Res.ok_bind, ih]
      · simp only [h41, if_false, Res.pure_eq]

/-- Every header counted lies within the captured length. -/
theorem skip_chained_ipv6_count_le (mem : List uint8_t) :
    ∀ fuel p, p ≤ mem.length →
      p + 40 * (skip_chained_ipv6_count mem fuel p).2 ≤ mem.length := by
  intro fuel
  induction fuel with
  | zero => intro p hp; simpa [skip_chained_ipv6_count] using hp
  | succ fuel ih =>
    intro p hp
    simp only [skip_chained_ipv6_count]
    cases hl : load mem (p + ipv6_off_nexthdr) with
    | fault => simpa using hp
    | timeout => simpa using hp
    | dropped => simpa using hp
    | ok nexthdr =>
      by_cases h41 : nexthdr = IPPROTO_IPV6
      · simp only [h41, if_true, CHECK_PACKET_LEN, sizeof_ipv6_hdr_t]
        by_cases hc : p + 40 > mem.length
        · simp only [hc, if_true]; simpa using hp
        · simp only [hc, if_false]
          have := ih (p + 40) (by omega)
          omega
      · simp only [h41, if_false]; simpa using hp

/-- With a cursor within the captured length and more fuel than 40-byte
chunks that remain, the loop does not run out of fuel, and its result and
count do not depend on the fuel. -/
theorem skip_chained_ipv6_count_fuel (mem : List uint8_t) :
    ∀ f1 f2 p, p ≤ mem.length → mem.length < p + 40 * f1 → mem.length < p + 40 * f2 →
      skip_chained_ipv6_count mem f1 p = skip_chained_ipv6_count mem f2 p ∧
      (skip_chained_ipv6_count mem f1 p).1 ≠ Res.timeout := by
  intro f1
  induction f1 with
  | zero => intro f2 p hp h1 _; omega
  | succ f1 ih =>
    intro f2 p hp h1 h2
    cases f2 with
    | zero => omega
    | succ f2 =>
      simp only [skip_chained_ipv6_count]
      cases hl : load mem (p + ipv6_off_nexthdr) with
      | fault => exact ⟨rfl, by simp⟩
      | timeout => simp [load] at hl; split at hl <;> cases hl
      | dropped => exact ⟨rfl, by simp⟩
      | ok nexthdr =>
        by_cases h41 : nexthdr = IPPROTO_IPV6
        · simp only [h41, if_true, CHECK_PACKET_LEN, sizeof_ipv6_hdr_t]
          by_cases hc : p + 40 > mem.length
          · simp only [hc, if_true]; exact ⟨trivial, by simp⟩
          · simp only [hc, if_false]
            obtain ⟨e, ne⟩ := ih f2 (p + 40) (by omega) (by omega) (by omega)
            rw [e]
            exact ⟨rfl, by rw [← e]; exact ne⟩
        · simp only [h41, if_false]; exact ⟨trivial, by simp⟩

theorem skip_chained_ipv6_count_short (mem : List uint8_t) (fuel p : Nat)
    (h : mem.length ≤ p + 6) :
    skip_chained_ipv6_count mem (fuel + 1) p = (Res.fault, 0) := by
  have e : load mem (p + ipv6_off_nexthdr) = Res.fault := load_of_ge h
  simp only [skip_chained_ipv6_count, e]

theorem handle_packet_ip_ne_timeout (mem : List uint8_t) :
    handle_packet_ip mem ≠ Res.timeout := by
  rcases Nat.lt_trichotomy mem.length 14 with hl | hl | hl
  · rw [handle_packet_ip_short mem hl]; simp
  · rw [handle_packet_ip_14 mem hl]; simp
  · by_cases h4 : byteAt mem 14 >>> 4 = 4
    · rw [handle_packet_ip_v4 mem hl h4]
      split_ifs <;> simp
    · by_cases h6 : byteAt mem 14 >>> 4 = 6
      · rw [handle_packet_ip_v6 mem hl h6]
        have hne := (skip_chained_ipv6_count_fuel mem (mem.length + 1) (mem.length + 1) 14
          (by omega) (by omega) (by omega)).2
        rw [skip_chained_ipv6_count_fst] at hne
        cases hs : skip_chained_ipv6 mem (mem.length + 1) 14 with
        | fault => simp
        | timeout => exact absurd hs hne
        | dropped => simp
        | ok q =>
          simp only [Res.ok_bind]
          by_cases hb : q + 6 < mem.length
          · rw [load_of_lt hb]
            simp only [Res.ok_bind, CHECK_PACKET_LEN]
            split_ifs <;> simp
          · rw [load_of_ge (by omega)]; simp
      · rw [handle_packet_ip_other mem hl h4 h6]; simp

theorem handle_packet_ne_timeout (ts : timeval) (mem : List uint8_t) :
    handle_packet ts mem ≠ Res.timeout := by
  simp only [handle_packet]
  cases hip : handle_packet_ip mem with
  | fault => simp
  | timeout => exact absurd hip (handle_packet_ip_ne_timeout mem)
  | dropped => simp
  | ok a =>
    obtain ⟨src, dst, v6, packet⟩ := a
    obtain ⟨_, _, hs, hd⟩ := handle_packet_ip_ok_shape mem src dst v6 packet hip
    simp only [Res.ok_bind]
    rw [handle_packet_udp_eq ts mem v6 src dst packet hs hd]
    split_ifs <;> simp

/-- The body of the inner loop leaves the state as it was or sets `pref_type`
to the type at hand. -/
theorem tstamp_body_type (user : Option String) (name : String) (ty : Int) (j : Nat)
    (s : tstamp_sel) :
    tstamp_body user name ty j s = s ∨ (tstamp_body user name ty j s).pref_type = ty := by
  unfold tstamp_body
  rcases user with _ | u
  · by_cases h : tstamp_type_pref[j]? = some name
    · right; simp only [h, if_true]
    · left; simp only [h, if_false]
  · by_cases hu : name = u
    · subst hu
      right
      by_cases h : tstamp_type_pref[j]? = some name
      · simp only [h, if_true]
      · simp only [h, if_false, if_true]
    · by_cases h : tstamp_type_pref[j]? = some name
      · right; simp only [h, if_true]
      · left; simp only [h, if_false, hu]

/-- One run of the inner loop leaves the state as it was or sets `pref_type` to
the type at hand. -/
theorem tstamp_inner_type (user : Option String) (name : String) (ty : Int) :
    ∀ (fuel j : Nat) (s s' : tstamp_sel),
      tstamp_inner user name ty fuel j s = Res.ok s' → s' = s ∨ s'.pref_type = ty := by
  intro fuel
  induction fuel with
  | zero => intro j s s' h; simp only [tstamp_inner] at h; cases h
  | succ fuel ih =>
    intro j s s' h
    simp only [tstamp_inner] at h
    by_cases hj : (j : Int) < s.pref_idx
    · rw [if_pos hj] at h
      rcases ih (j + 1) _ s' h with e | e
      · rcases tstamp_body_type user name ty j s with b | b
        · left; rw [e, b]
        · right; rw [e, b]
      · exact Or.inr e
    · rw [if_neg hj] at h
      exact Or.inl (Res.ok.inj h).symm

/-- The outer loop leaves the state as it was or sets `pref_type` to one of the
supported types. -/
theorem tstamp_outer_type (val_to_name : Int → String) (user : Option String)
    (tys : List Int) :
    ∀ s : tstamp_sel, -1 ≤ s.pref_idx → s.pref_idx ≤ 3 →
      ∀ s', tstamp_outer val_to_name user tys s = Res.ok s' → s' = s ∨ s'.pref_type ∈ tys := by
  induction tys with
  | nil =>
    intro s _ _ s' hs'
    simp only [tstamp_outer, Res.ok.injEq] at hs'
    exact Or.inl hs'.symm
  | cons ty rest ih =>
    intro s h1 h2 s' hs'
    obtain ⟨s1, e1, a1, b1, _⟩ := tstamp_inner_range user (val_to_name ty) ty s h1 h2
    simp only [tstamp_outer, e1, Res.ok_bind] at hs'
    rcases ih s1 a1 b1 s' hs' with h | h
    · subst h
      rcases tstamp_inner_type user (val_to_name ty) ty _ 0 s s' e1 with h | h
      · exact Or.inl h
      · exact Or.inr (by rw [h]; exact List.mem_cons_self _ _)
    · exact Or.inr (List.mem_cons_of_mem _ h)

/-! ## The claims -/

/-- C1: for a header-length nibble `h` between 5 and 15, a frame of exactly
`14 + 4h + 8 + 48` bytes whose byte 14 is `0x40 | h`, whose protocol byte is 17
and whose fragment bits are clear is dissected into one IPv4 record: addresses
from bytes 26..29 and 30..33, ports big-endian at `14 + 4h` and `14 + 4h + 2`,
the capture timestamp passed in, and the message decoded from the 48 bytes at
`14 + 4h + 8`. -/
theorem ipv4_end_to_end (ts : timeval) (mem : List uint8_t) (h : Nat)
    (h5 : 5 ≤ h) (h15 : h ≤ 15) (hlen : mem.length = 14 + 4 * h + 8 + 48)
    (hver : byteAt mem 14 = 0x40 ||| h) (hproto : byteAt mem 23 = 17)
    (_hfrag : be16At mem 20 &&& 0x3fff = 0) :
    ∃ r, handle_packet ts mem = Res.ok r ∧ r.ipv6 = false ∧
      r.src_ip = [byteAt mem 26, byteAt mem 27, byteAt mem 28, byteAt mem 29] ∧
      r.dst_ip = [byteAt mem 30, byteAt mem 31, byteAt mem 32, byteAt mem 33] ∧
      r.src_port = byteAt mem (14 + 4 * h) * 256 + byteAt mem (14 + 4 * h + 1) ∧
      r.dst_port = byteAt mem (14 + 4 * h + 2) * 256 + byteAt mem (14 + 4 * h + 3) ∧
      r.tstamp = ts ∧
      parse_ntp_packet mem (14 + 4 * h + 8) = Res.ok r.ntp ∧
      parse_ntp_packet ((mem.drop (14 + 4 * h + 8)).take 48) 0 = Res.ok r.ntp := by
  obtain ⟨hv, hn⟩ := nibbles_of_or h h15
  rw [← hver] at hv hn
  have hp : 14 + (byteAt mem 14 &&& 15) * 4 = 14 + 4 * h := by rw [hn]; omega
  refine ⟨recordAt ts mem false 26 30 (14 + 4 * h), ?_, rfl, rfl, rfl, rfl, rfl, rfl, ?_, ?_⟩
  · rw [handle_packet_v4 ts mem (by omega) hv, if_neg (by omega), if_pos ⟨hproto, by omega⟩, hp]
  · exact parse_ntp_packet_of_le mem _ (by omega)
  · exact parse_ntp_packet_slice mem _ (by omega)

/-- Witness of C1: the 90-byte sample frame with header-length nibble 5. -/
theorem ipv4_end_to_end_witness :
    ∃ r, handle_packet sample_ts (sample_ipv4 0 0) = Res.ok r ∧ r.ipv6 = false ∧
      r.src_ip = [10, 0, 0, 1] ∧ r.dst_ip = [10, 0, 0, 2] ∧
      r.src_port = 123 ∧ r.dst_port = 124 ∧ r.tstamp = sample_ts ∧ r.ntp = sample_msg 1 := by
  obtain ⟨r, h1, h2, h3, h4, h5, h6, h7, h8, _⟩ :=
    ipv4_end_to_end sample_ts (sample_ipv4 0 0) 5 (by decide) (by decide) (by decide)
      (by decide) (by decide) (by decide)
  have e : parse_ntp_packet (sample_ipv4 0 0) (14 + 4 * 5 + 8) = Res.ok (sample_msg 1) := by
    decide
  rw [e] at h8
  exact ⟨r, h1, h2, h3, h4, h5, h6, h7, (Res.ok.inj h8).symm⟩

/-- C2: the decoder inverts the 48-byte big-endian encoding of the fields, and
the encoding inverts the decoder on every 48-byte input: for field values
that fit their widths, `parse_ntp_packet` on the encoding returns exactly
those values, and re-encoding what it decodes from 48 bytes gives the same
48 bytes. -/
theorem parse_ntp_packet_roundtrip (n : ntp_pkt_t) (hn : n.inRange) (mem : List uint8_t)
    (hmem : mem.length = 48) :
    (encode_ntp_packet n).length = 48 ∧
    parse_ntp_packet (encode_ntp_packet n) 0 = Res.ok n ∧
    ∃ m, parse_ntp_packet mem 0 = Res.ok m ∧ encode_ntp_packet m = mem :=
  ⟨rfl, parse_encode n hn, encode_parse mem hmem⟩

/-- Witness of C2: the sample message and its 48 bytes. -/
theorem parse_ntp_packet_roundtrip_witness :
    (encode_ntp_packet (sample_msg 1)).length = 48 ∧
    parse_ntp_packet (encode_ntp_packet (sample_msg 1)) 0 = Res.ok (sample_msg 1) ∧
    ∃ m, parse_ntp_packet (sample_ntp 1) 0 = Res.ok m ∧ encode_ntp_packet m = sample_ntp 1 :=
  parse_ntp_packet_roundtrip (sample_msg 1) (by decide) (sample_ntp 1) (by decide)

/-- C3, as stated, fails: the well-formed sample frame is dissected into a
record, and the same frame with the "more fragments" bit set (byte 20 set to
0x20, so that the flags and fragment offset field is 0x2000) is dissected
into the same record. -/
theorem more_fragments_counterexample :
    sample_ipv4 0x20 0 = (sample_ipv4 0 0).set 20 0x20 ∧
    be16At (sample_ipv4 0x20 0) 20 &&& 0x2000 ≠ 0 ∧
    handle_packet sample_ts (sample_ipv4 0 0) = Res.ok
      { ipv6 := false, src_ip := [10, 0, 0, 1], src_port := 123, dst_ip := [10, 0, 0, 2],
        dst_port := 124, tstamp := sample_ts, ntp := sample_msg 1 } ∧
    handle_packet sample_ts (sample_ipv4 0x20 0) = Res.ok
      { ipv6 := false, src_ip := [10, 0, 0, 1], src_port := 123, dst_ip := [10, 0, 0, 2],
        dst_port := 124, tstamp := sample_ts, ntp := sample_msg 1 } := by
  decide

/-- C3 as amended: a frame that is dissected into a record on the IPv4 path
and whose fragment offset is zero still yields a record when its "more
fragments" bit is set (the first fragment is taken); the record is the same
one when the header-length nibble is at least 2, so that byte 20 is not part
of the UDP header. -/
theorem first_fragment_taken (ts : timeval) (mem : List uint8_t) (r : DissectedPacket)
    (hok : handle_packet ts mem = Res.ok r) (hv : byteAt mem 14 >>> 4 = 4)
    (_hoff : be16At mem 20 &&& IPv4_FOF_MASK = 0) :
    ∃ r', handle_packet ts (mem.set 20 (Fin.ofNat (byteAt mem 20 ||| 0x20))) = Res.ok r' ∧
      (2 ≤ byteAt mem 14 &&& 15 → r' = r) := by
  have hne : ∀ i, i ≠ 20 → byteAt (mem.set 20 (Fin.ofNat (byteAt mem 20 ||| 0x20))) i
      = byteAt mem i := fun i hi => byteAt_set_ne mem i 20 _ (Ne.symm hi)
  rw [handle_packet_ok_iff] at hok
  rcases hok with ⟨_, hp, hl, rfl⟩ | ⟨h6, _⟩
  · refine ⟨recordAt ts (mem.set 20 (Fin.ofNat (byteAt mem 20 ||| 0x20))) false 26 30
      (14 + (byteAt mem 14 &&& 15) * 4), ?_, ?_⟩
    · rw [handle_packet_ok_iff]
      left
      rw [hne 14 (by omega), hne 23 (by omega), List.length_set]
      exact ⟨hv, hp, hl, rfl⟩
    · intro h2
      apply recordAt_congr
      · intro k hk; exact hne _ (by omega)
      · intro k hk; exact hne _ (by omega)
      · intro k hk; exact hne _ (by omega)
      · intro k hk; exact hne _ (by omega)
  · omega

/-- Witness of the amended C3: the sample frame. -/
theorem first_fragment_taken_witness :
    ∃ r', handle_packet sample_ts
        ((sample_ipv4 0 0).set 20 (Fin.ofNat (byteAt (sample_ipv4 0 0) 20 ||| 0x20)))
        = Res.ok r' ∧
      (2 ≤ byteAt (sample_ipv4 0 0) 14 &&& 15 → r' =
        { ipv6 := false, src_ip := [10, 0, 0, 1], src_port := 123, dst_ip := [10, 0, 0, 2],
          dst_port := 124, tstamp := sample_ts, ntp := sample_msg 1 }) :=
  first_fragment_taken sample_ts (sample_ipv4 0 0) _ (by decide) (by decide) (by decide)

/-- C4: when `handle_packet` produces a record, on either path, exactly 48
captured bytes remain after the 8-byte UDP header that follows the IP
header(s); and no frame obtained from an accepted frame by appending bytes to
it, or by cutting bytes off its end, yields a record. -/
theorem strict_message_size (ts : timeval) (mem : List uint8_t) (r : DissectedPacket)
    (hok : handle_packet ts mem = Res.ok r) :
    (∃ src dst v6 packet, handle_packet_ip mem = Res.ok (src, dst, v6, packet) ∧
      packet + sizeof_udp_hdr_t ≤ mem.length ∧
      mem.length - (packet + sizeof_udp_hdr_t) = 48) ∧
    (∀ ts' extra r', extra ≠ [] → handle_packet ts' (mem ++ extra) ≠ Res.ok r') ∧
    (∀ ts' k r', k < mem.length → handle_packet ts' (mem.take k) ≠ Res.ok r') := by
  refine ⟨?_, ?_, ?_⟩
  · have h := hok
    simp only [handle_packet, Res.bind_eq_ok] at h
    obtain ⟨⟨src, dst, v6, packet⟩, h1, h2⟩ := h
    exact ⟨src, dst, v6, packet, h1, handle_packet_udp_ok_length ts mem src dst v6 packet r h2⟩
  · intro ts' extra r' hne h'
    exact hne (accept_no_extension ts ts' mem extra r r' hok h')
  · intro ts' k r' hk h'
    have hsplit : mem.take k ++ mem.drop k = mem := List.take_append_drop k mem
    rw [← hsplit] at hok
    have hnil := accept_no_extension ts' ts (mem.take k) (mem.drop k) r' r h' hok
    have hlen : (mem.drop k).length = 0 := by rw [hnil]; rfl
    rw [List.length_drop] at hlen
    omega

/-- Witness of C4: the 90-byte sample frame is accepted. -/
theorem strict_message_size_witness :
    (∃ src dst v6 packet, handle_packet_ip (sample_ipv4 0 0) = Res.ok (src, dst, v6, packet) ∧
      packet + sizeof_udp_hdr_t ≤ (sample_ipv4 0 0).length ∧
      (sample_ipv4 0 0).length - (packet + sizeof_udp_hdr_t) = 48) ∧
    (∀ ts' extra r', extra ≠ [] →
      handle_packet ts' (sample_ipv4 0 0 ++ extra) ≠ Res.ok r') ∧
    (∀ ts' k r', k < (sample_ipv4 0 0).length →
      handle_packet ts' ((sample_ipv4 0 0).take k) ≠ Res.ok r') :=
  strict_message_size sample_ts (sample_ipv4 0 0)
    { ipv6 := false, src_ip := [10, 0, 0, 1], src_port := 123, dst_ip := [10, 0, 0, 2],
      dst_port := 124, tstamp := sample_ts, ntp := sample_msg 1 } (by decide)

/-- C5 fails on the code: on a frame of exactly 14 captured bytes the check
after the Ethernet header passes (14 > 14 is false) and the version byte is
read at index 14, which is not below the captured length; and on a 20-byte
frame with version 4 the protocol byte is read at index 23. -/
theorem read_past_captured_length :
    (List.replicate 14 (0 : uint8_t)).length = 14 ∧
    CHECK_PACKET_LEN sizeof_eth_hdr_t (List.replicate 14 (0 : uint8_t)).length = Res.ok () ∧
    load (List.replicate 14 (0 : uint8_t)) sizeof_eth_hdr_t = Res.fault ∧
    handle_packet sample_ts (List.replicate 14 0) = Res.fault ∧
    handle_packet sample_ts (sample_eth ++ [0x45, 0, 0, 76, 0, 0]) = Res.fault := by
  decide

/-- C6, as stated, fails: the 70-byte sample frame with version 4 and
header-length nibble 0 is shorter than 90 bytes and yields a record. -/
theorem short_frame_counterexample :
    sample_ipv4_h0.length = 70 ∧
    handle_packet sample_ts sample_ipv4_h0 = Res.ok
      { ipv6 := false, src_ip := [0, 0, 0, 1], src_port := 0x4000, dst_ip := [0, 0, 0, 2],
        dst_port := 124, tstamp := sample_ts, ntp := sample_msg 17 } := by
  decide

/-- C6 as amended: a frame shorter than 90 bytes yields no record, unless its
byte 14 has high nibble 4 and a header-length nibble `h` below 5, its byte 23
is 17 and its length is exactly `14 + 4h + 8 + 48`. -/
theorem short_frames_rejected (ts : timeval) (mem : List uint8_t) (hlen : mem.length < 90)
    (hno : ¬ (byteAt mem 14 >>> 4 = 4 ∧ byteAt mem 14 &&& 15 < 5 ∧ byteAt mem 23 = 17 ∧
      mem.length = 14 + 4 * (byteAt mem 14 &&& 15) + 8 + 48)) :
    ∀ r, handle_packet ts mem ≠ Res.ok r := by
  intro r hok
  rw [handle_packet_ok_iff] at hok
  rcases hok with ⟨h4, hp, hl, _⟩ | ⟨_, n, _, _, hl, _⟩
  · exact hno ⟨h4, by omega, hp, by omega⟩
  · omega

/-- Witness of the amended C6: the 70-byte sample frame with header-length
nibble 0 and one more byte at its end, 71 bytes, is rejected. -/
theorem short_frames_rejected_witness :
    (sample_ipv4_h0 ++ [0]).length = 71 ∧
    ∀ r, handle_packet sample_ts (sample_ipv4_h0 ++ [0]) ≠ Res.ok r :=
  ⟨by decide, short_frames_rejected sample_ts (sample_ipv4_h0 ++ [0]) (by decide) (by decide)⟩

/-- C7, as stated, fails: in the sample frame with one chained IPv6 header the
record carries the addresses of the second (last) IPv6 header, bytes 62..77
and 78..93, not those of the first one, bytes 22..37 and 38..53. -/
theorem ipv6_first_header_counterexample :
    handle_packet sample_ts sample_ipv6_chain = Res.ok
      { ipv6 := true, src_ip := List.replicate 16 0xcc, src_port := 123,
        dst_ip := List.replicate 16 0xdd, dst_port := 124, tstamp := sample_ts,
        ntp := sample_msg 1 } ∧
    bytesAt sample_ipv6_chain 22 16 = List.replicate 16 0xaa ∧
    bytesAt sample_ipv6_chain 38 16 = List.replicate 16 0xbb ∧
    bytesAt sample_ipv6_chain 62 16 = List.replicate 16 0xcc ∧
    bytesAt sample_ipv6_chain 78 16 = List.replicate 16 0xdd := by
  decide

/-- C7 as amended: for an accepted IPv6 frame with `n` chained IPv6 headers
before the final one, the addresses of the record are the source and
destination fields of the last IPv6 header of the chain, the 16 bytes at
`14 + 40n + 8` and at `14 + 40n + 24`; for `n = 0` that is the first header. -/
theorem ipv6_addresses_of_last_header (ts : timeval) (mem : List uint8_t)
    (r : DissectedPacket) (n : Nat) (hok : handle_packet ts mem = Res.ok r)
    (hv : byteAt mem 14 >>> 4 = 6) (hch : chained mem 14 n)
    (hlast : byteAt mem (14 + 40 * n + 6) = 17) :
    r.src_ip = bytesAt mem (14 + 40 * n + 8) 16 ∧
    r.dst_ip = bytesAt mem (14 + 40 * n + 24) 16 := by
  rw [handle_packet_ok_iff] at hok
  rcases hok with ⟨h4, _⟩ | ⟨_, m, hchm, hm, _, rfl⟩
  · omega
  · have e : m = n := chained_unique mem 14 m n hchm hch (by omega) (by omega)
    subst e
    exact ⟨rfl, rfl⟩

/-- Witness of the amended C7: the sample frame with one chained header. -/
theorem ipv6_addresses_of_last_header_witness :
    List.replicate 16 0xcc = bytesAt sample_ipv6_chain (14 + 40 * 1 + 8) 16 ∧
    List.replicate 16 0xdd = bytesAt sample_ipv6_chain (14 + 40 * 1 + 24) 16 :=
  ipv6_addresses_of_last_header sample_ts sample_ipv6_chain
    { ipv6 := true, src_ip := List.replicate 16 0xcc, src_port := 123,
      dst_ip := List.replicate 16 0xdd, dst_port := 124, tstamp := sample_ts,
      ntp := sample_msg 1 } 1 (by decide) (by decide) (by decide) (by decide)

/-- C8: for every `n`, a frame of exactly `14 + 40(n+1) + 8 + 48` bytes whose
byte 14 has high nibble 6, whose first `n` IPv6 headers have next-header 41
and whose last one has next-header 17 is dissected into one IPv6 record, with
the ports read big-endian at `14 + 40(n+1)` and the message decoded from the
last 48 bytes. -/
theorem ipv6_chain_walk (ts : timeval) (mem : List uint8_t) (n : Nat)
    (hlen : mem.length = 14 + 40 * (n + 1) + 8 + 48) (hv : byteAt mem 14 >>> 4 = 6)
    (hch : chained mem 14 n) (hlast : byteAt mem (14 + 40 * n + 6) = 17) :
    ∃ r, handle_packet ts mem = Res.ok r ∧ r.ipv6 = true ∧
      r.src_port = byteAt mem (14 + 40 * (n + 1)) * 256 + byteAt mem (14 + 40 * (n + 1) + 1) ∧
      r.dst_port = byteAt mem (14 + 40 * (n + 1) + 2) * 256
        + byteAt mem (14 + 40 * (n + 1) + 3) ∧
      r.tstamp = ts ∧
      parse_ntp_packet mem (mem.length - 48) = Res.ok r.ntp ∧
      parse_ntp_packet ((mem.drop (mem.length - 48)).take 48) 0 = Res.ok r.ntp := by
  have hp : mem.length - 48 = 14 + 40 * (n + 1) + 8 := by omega
  refine ⟨recordAt ts mem true (14 + 40 * n + 8) (14 + 40 * n + 24) (14 + 40 * (n + 1)), ?_,
    rfl, rfl, rfl, rfl, ?_, ?_⟩
  · rw [handle_packet_ok_iff]
    right
    exact ⟨hv, n, hch, hlast, by omega, rfl⟩
  · rw [hp]; exact parse_ntp_packet_of_le mem _ (by omega)
  · rw [hp]; exact parse_ntp_packet_slice mem _ (by omega)

/-- Witness of C8: the sample frame with one chained header. -/
theorem ipv6_chain_walk_witness :
    ∃ r, handle_packet sample_ts sample_ipv6_chain = Res.ok r ∧ r.ipv6 = true ∧
      r.src_port = 123 ∧ r.dst_port = 124 ∧ r.tstamp = sample_ts ∧ r.ntp = sample_msg 1 := by
  obtain ⟨r, h1, h2, h3, h4, h5, h6, _⟩ :=
    ipv6_chain_walk sample_ts sample_ipv6_chain 1 (by decide) (by decide) (by decide)
      (by decide)
  have e : parse_ntp_packet sample_ipv6_chain (sample_ipv6_chain.length - 48)
      = Res.ok (sample_msg 1) := by decide
  rw [e] at h6
  exact ⟨r, h1, h2, h3, h4, h5, (Res.ok.inj h6).symm⟩

/-- C9: when `handle_packet` produces a record, the high nibble of byte 14 is
4 or 6; on the version 4 path the protocol byte (offset 23) is 17; on the
version 6 path the chain of IPv6 headers with next-header 41 ends in a header
whose next-header is 17, and every header that ends the chain has
next-header 17.  So any other version and any other protocol give no record. -/
theorem only_udp_over_ip (ts : timeval) (mem : List uint8_t) (r : DissectedPacket)
    (hok : handle_packet ts mem = Res.ok r) :
    14 < mem.length ∧
    ((byteAt mem 14 >>> 4 = 4 ∧ r.ipv6 = false ∧ byteAt mem 23 = 17) ∨
     (byteAt mem 14 >>> 4 = 6 ∧ r.ipv6 = true ∧
       (∃ n, chained mem 14 n ∧ byteAt mem (14 + 40 * n + 6) = 17) ∧
       (∀ m, chained mem 14 m → byteAt mem (14 + 40 * m + 6) ≠ 41 →
         byteAt mem (14 + 40 * m + 6) = 17))) := by
  refine ⟨handle_packet_ok_length ts mem r hok, ?_⟩
  rw [handle_packet_ok_iff] at hok
  rcases hok with ⟨h4, hp, _, rfl⟩ | ⟨h6, n, hch, hn, _, rfl⟩
  · exact Or.inl ⟨h4, rfl, hp⟩
  · refine Or.inr ⟨h6, rfl, ⟨n, hch, hn⟩, ?_⟩
    intro m hm hne
    have e : m = n := chained_unique mem 14 m n hm hch hne (by omega)
    rw [e]; exact hn

/-- Witness of C9: the sample IPv4 frame. -/
theorem only_udp_over_ip_witness :
    14 < (sample_ipv4 0 0).length ∧
    ((byteAt (sample_ipv4 0 0) 14 >>> 4 = 4 ∧ false = false ∧ byteAt (sample_ipv4 0 0) 23 = 17) ∨
     (byteAt (sample_ipv4 0 0) 14 >>> 4 = 6 ∧ false = true ∧
       (∃ n, chained (sample_ipv4 0 0) 14 n ∧ byteAt (sample_ipv4 0 0) (14 + 40 * n + 6) = 17) ∧
       (∀ m, chained (sample_ipv4 0 0) 14 m → byteAt (sample_ipv4 0 0) (14 + 40 * m + 6) ≠ 41 →
         byteAt (sample_ipv4 0 0) (14 + 40 * m + 6) = 17))) :=
  only_udp_over_ip sample_ts (sample_ipv4 0 0)
    { ipv6 := false, src_ip := [10, 0, 0, 1], src_port := 123, dst_ip := [10, 0, 0, 2],
      dst_port := 124, tstamp := sample_ts, ntp := sample_msg 1 } (by decide)

/-- C10: with no user preference the selection loop ends, for every list of
supported types, with `pref_idx` the lowest index that the name of a
supported type has in the fixed order (3, the length of the table, when no
supported name is in it), and in the first case with `pref_type` a supported
type whose name has that index; so for the supported list host, adapter,
adapter_unsynced it chooses adapter_unsynced. -/
theorem select_without_preference (val_to_name : Int → String) (tstamp_types : List Int) :
    (∃ s, select_tstamp_type val_to_name none tstamp_types = Res.ok s ∧
      (∀ ty, ty ∈ tstamp_types → s.pref_idx ≤ pref_rank (val_to_name ty)) ∧
      ((s.pref_idx = 3 ∧ chosen_tstamp_type s = none) ∨
       (s.pref_idx < 3 ∧ chosen_tstamp_type s = some s.pref_type ∧
         s.pref_type ∈ tstamp_types ∧ (pref_rank (val_to_name s.pref_type) : Int) = s.pref_idx ∧
         tstamp_type_pref[pref_rank (val_to_name s.pref_type)]?
           = some (val_to_name s.pref_type)))) ∧
    select_tstamp_type sample_val_to_name none [0, 3, 4]
      = Res.ok { pref_idx := 0, pref_type := 4 } ∧
    sample_val_to_name 4 = "adapter_unsynced" := by
  refine ⟨?_, by decide, by decide⟩
  obtain ⟨k', t', h1, h2, h3, h4⟩ :=
    tstamp_outer_none val_to_name tstamp_types 3 PCAP_ERROR (Nat.le_refl 3)
  refine ⟨{ pref_idx := k', pref_type := t' }, h1, ?_, ?_⟩
  · intro ty hty
    exact Int.ofNat_le.mpr (h3 ty hty)
  · rcases h4 with ⟨e1, e2⟩ | ⟨e1, e2⟩
    · left
      subst e1 e2
      exact ⟨rfl, by decide⟩
    · by_cases hk : k' = 3
      · left
        subst hk
        exact ⟨rfl, by simp [chosen_tstamp_type, tstamp_type_pref]⟩
      · right
        have hlt : k' < 3 := by omega
        refine ⟨by simpa using hlt, ?_, e1, by simp [e2], ?_⟩
        · have : (k' : Int) ≠ 3 := by omega
          simp [chosen_tstamp_type, tstamp_type_pref, this]
        · simp only at e2 ⊢
          rw [pref_rank_eq] at e2 ⊢
          split_ifs at e2 ⊢ with a b c
          · rw [a]; rfl
          · rw [b]; rfl
          · rw [c]; rfl
          · omega

/-- C11 fails on the code: with the supported types adapter_unsynced and host,
in that order, and the user preference host, the loop ends with `pref_idx` 0
and chooses adapter_unsynced, although host is supported; with host first it
chooses host, as it does for the list of the example. -/
theorem user_preference_skipped :
    sample_val_to_name 4 = "adapter_unsynced" ∧ sample_val_to_name 0 = "host" ∧
    select_tstamp_type sample_val_to_name (some "host") [4, 0]
      = Res.ok { pref_idx := 0, pref_type := 4 } ∧
    chosen_tstamp_type { pref_idx := 0, pref_type := 4 } = some 4 ∧
    select_tstamp_type sample_val_to_name (some "host") [0, 3, 4]
      = Res.ok { pref_idx := -1, pref_type := 0 } := by
  decide

/-- C12 fails on the code: with the user preference host, the supported list
host, adapter_unsynced gives host, and its permutation adapter_unsynced, host
gives adapter_unsynced. -/
theorem selection_depends_on_order :
    List.Perm [(0 : Int), 4] [4, 0] ∧
    select_tstamp_type sample_val_to_name (some "host") [0, 4]
      = Res.ok { pref_idx := -1, pref_type := 0 } ∧
    select_tstamp_type sample_val_to_name (some "host") [4, 0]
      = Res.ok { pref_idx := 0, pref_type := 4 } ∧
    chosen_tstamp_type { pref_idx := -1, pref_type := 0 } = some 0 ∧
    chosen_tstamp_type { pref_idx := 0, pref_type := 4 } = some 4 ∧
    sample_val_to_name 0 ≠ sample_val_to_name 4 := by
  refine ⟨List.Perm.swap 4 0 [], ?_⟩
  decide

/-- C13: for every list of supported types and every optional user
preference the selection loop ends; no type is chosen, and `pref_idx` is
still the length of the table, exactly when no supported name is in the table
and no supported name is the user's choice; when some supported name is in
the table or is the user's choice, `pref_type` is chosen and it is one of the
supported types.  A single supported name foo gives nothing with no
preference and is chosen with the preference foo. -/
theorem none_chosen_iff_nothing_matches (val_to_name : Int → String) (user : Option String)
    (tstamp_types : List Int) :
    (∃ s, select_tstamp_type val_to_name user tstamp_types = Res.ok s ∧
      (chosen_tstamp_type s = none ↔
        ∀ ty, ty ∈ tstamp_types →
          val_to_name ty ∉ ["adapter_unsynced", "adapter", "host"] ∧
          user ≠ some (val_to_name ty)) ∧
      (s.pref_idx = tstamp_type_pref.length ↔
        ∀ ty, ty ∈ tstamp_types →
          val_to_name ty ∉ ["adapter_unsynced", "adapter", "host"] ∧
          user ≠ some (val_to_name ty)) ∧
      ((∃ ty, ty ∈ tstamp_types ∧
          (val_to_name ty ∈ ["adapter_unsynced", "adapter", "host"] ∨
            user = some (val_to_name ty))) →
        chosen_tstamp_type s = some s.pref_type ∧ s.pref_type ∈ tstamp_types)) ∧
    select_tstamp_type (fun _ => "foo") none [0]
      = Res.ok { pref_idx := 3, pref_type := PCAP_ERROR } ∧
    chosen_tstamp_type { pref_idx := 3, pref_type := PCAP_ERROR } = none ∧
    select_tstamp_type (fun _ => "foo") (some "foo") [0]
      = Res.ok { pref_idx := -1, pref_type := 0 } ∧
    chosen_tstamp_type { pref_idx := -1, pref_type := 0 } = some 0 := by
  refine ⟨?_, by decide, by decide, by decide, by decide⟩
  obtain ⟨s, e, _, _, c⟩ := tstamp_outer_range val_to_name user tstamp_types
    { pref_idx := tstamp_type_pref.length, pref_type := PCAP_ERROR } (by decide) (by decide)
  have ht := tstamp_outer_type val_to_name user tstamp_types
    { pref_idx := tstamp_type_pref.length, pref_type := PCAP_ERROR } (by decide) (by decide) s e
  have h3 : ((tstamp_type_pref.length : Nat) : Int) = 3 := rfl
  have hc : chosen_tstamp_type s = none ↔ s.pref_idx = 3 := by
    simp only [chosen_tstamp_type, h3]
    by_cases h : s.pref_idx = 3 <;> simp [h]
  have hR : s.pref_idx = 3 ↔
      ∀ ty, ty ∈ tstamp_types →
        val_to_name ty ∉ ["adapter_unsynced", "adapter", "host"] ∧
        user ≠ some (val_to_name ty) := by
    rw [c]
    constructor
    · rintro ⟨_, h⟩; exact h
    · intro h; exact ⟨rfl, h⟩
  refine ⟨s, e, hc.trans hR, by rw [h3]; exact hR, ?_⟩
  rintro ⟨ty, hty, hm⟩
  have hne : s.pref_idx ≠ 3 := by
    intro h
    have hall := hR.mp h ty hty
    rcases hm with hm | hm
    · exact hall.1 hm
    · exact hall.2 hm
  constructor
  · simp only [chosen_tstamp_type, h3]
    rw [if_pos hne]
  · rcases ht with h | h
    · rw [h] at hne
      exact absurd rfl hne
    · exact h

/-- C14: two frames of equal captured length that differ only in the length
and checksum fields of the UDP header (the four bytes from `u + 4` on, where
`u` is the offset of the UDP header, on the IPv6 path or on the IPv4 path with
header-length nibble at least 5) both give no record or both give the same
record. -/
theorem udp_length_checksum_not_trusted (ts : timeval) (m1 m2 : List uint8_t) (u : Nat)
    (hlen : m1.length = m2.length) (hu : udp_header_at m1 u)
    (hsame : ∀ i, i < m1.length → (i < u + 4 ∨ u + 8 ≤ i) → byteAt m1 i = byteAt m2 i) :
    ((∀ r, handle_packet ts m1 ≠ Res.ok r) ∧ (∀ r, handle_packet ts m2 ≠ Res.ok r)) ∨
    (∃ r, handle_packet ts m1 = Res.ok r ∧ handle_packet ts m2 = Res.ok r) := by
  have hs := byteAt_eq_outside m1 m2 (u + 4) (u + 8) hlen hsame
  have hs' : ∀ i, (i < u + 4 ∨ u + 8 ≤ i) → byteAt m2 i = byteAt m1 i :=
    fun i hi => (hs i hi).symm
  have hu' := udp_header_at_transfer m1 m2 u hs hu
  by_cases h : ∃ r, handle_packet ts m1 = Res.ok r
  · obtain ⟨r, hr⟩ := h
    exact Or.inr ⟨r, hr, udp_fields_transfer ts m1 m2 u r hlen hu hs hr⟩
  · left
    refine ⟨fun r hr => h ⟨r, hr⟩, fun r hr => h ⟨r, ?_⟩⟩
    exact udp_fields_transfer ts m2 m1 u r hlen.symm hu' hs' hr

/-- Witness of C14: the sample IPv4 frame and the same frame with other bytes
in the UDP length and checksum fields. -/
theorem udp_length_checksum_not_trusted_witness :
    ((∀ r, handle_packet sample_ts (sample_ipv4 0 0) ≠ Res.ok r) ∧
      (∀ r, handle_packet sample_ts sample_ipv4_badsum ≠ Res.ok r)) ∨
    (∃ r, handle_packet sample_ts (sample_ipv4 0 0) = Res.ok r ∧
      handle_packet sample_ts sample_ipv4_badsum = Res.ok r) :=
  udp_length_checksum_not_trusted sample_ts (sample_ipv4 0 0) sample_ipv4_badsum 34
    (by decide) (Or.inl ⟨by decide, by decide, by decide⟩) (by decide)

/-- C15: on every frame the loop over the chained IPv6 headers stops: with
any fuel above the number of 40-byte chunks after the Ethernet header it does
not run out of fuel, and its result and count are those for the fuel
`handle_packet` gives it; it advances past at most `(L - 14) / 40` headers
before it leaves the loop or the frame is rejected; `handle_packet` never runs
out of fuel.  On the 141-byte sample frame whose chunks all have next-header
41 the loop advances past 3 headers and the frame is rejected. -/
theorem ipv6_chain_loop_terminates (ts : timeval) (mem : List uint8_t) (extra : Nat) :
    skip_chained_ipv6 mem ((mem.length - 14) / 40 + 1 + extra) 14 ≠ Res.timeout ∧
    skip_chained_ipv6_count mem ((mem.length - 14) / 40 + 1 + extra) 14
      = skip_chained_ipv6_count mem (mem.length + 1) 14 ∧
    (skip_chained_ipv6_count mem (mem.length + 1) 14).1
      = skip_chained_ipv6 mem (mem.length + 1) 14 ∧
    (skip_chained_ipv6_count mem (mem.length + 1) 14).2 ≤ (mem.length - 14) / 40 ∧
    handle_packet_ip mem ≠ Res.timeout ∧ handle_packet ts mem ≠ Res.timeout ∧
    sample_ipv6_all41.length = 141 ∧
    skip_chained_ipv6_count sample_ipv6_all41 (sample_ipv6_all41.length + 1) 14
      = (Res.dropped, 3) := by
  refine ⟨?_, ?_, skip_chained_ipv6_count_fst mem _ _, ?_, handle_packet_ip_ne_timeout mem,
    handle_packet_ne_timeout ts mem, by decide, by decide⟩
  · rw [← skip_chained_ipv6_count_fst]
    by_cases h14 : 14 ≤ mem.length
    · exact (skip_chained_ipv6_count_fuel mem _ (mem.length + 1) 14 h14 (by omega)
        (by omega)).2
    · rw [show (mem.length - 14) / 40 + 1 + extra = ((mem.length - 14) / 40 + extra) + 1 by
        omega, skip_chained_ipv6_count_short mem _ 14 (by omega)]
      simp
  · by_cases h14 : 14 ≤ mem.length
    · exact (skip_chained_ipv6_count_fuel mem _ (mem.length + 1) 14 h14 (by omega)
        (by omega)).1
    · rw [show (mem.length - 14) / 40 + 1 + extra = ((mem.length - 14) / 40 + extra) + 1 by
        omega, skip_chained_ipv6_count_short mem _ 14 (by omega),
        skip_chained_ipv6_count_short mem _ 14 (by omega)]
  · by_cases h14 : 14 ≤ mem.length
    · have := skip_chained_ipv6_count_le mem (mem.length + 1) 14 h14
      omega
    · rw [skip_chained_ipv6_count_short mem _ 14 (by omega)]
      exact Nat.zero_le _

/-- C16: with the eight bytes b0..b7 from `p` on in bounds, `get_u32be` returns
`b0 * 2^24 + b1 * 2^16 + b2 * 2^8 + b3`, a value below `2^32`, and advances the
cursor by exactly 4; `get_u64be` returns the value of `get_u32be` on b0..b3
times `2^32` plus its value on b4..b7, which is the sum of `b_i * 256^(7-i)`
and below `2^64`, and advances the cursor by exactly 8; each byte is what
`get_u8` reads at its index. -/
theorem multi_byte_reads_big_endian (mem : List uint8_t) (p : Nat) (h : p + 8 ≤ mem.length) :
    (∀ i, i < 8 → get_u8 mem (p + i) = Res.ok (byteAt mem (p + i), p + i + 1)) ∧
    get_u32be mem p = Res.ok (byteAt mem p * 2 ^ 24 + byteAt mem (p + 1) * 2 ^ 16
      + byteAt mem (p + 2) * 2 ^ 8 + byteAt mem (p + 3), p + 4) ∧
    byteAt mem p * 2 ^ 24 + byteAt mem (p + 1) * 2 ^ 16 + byteAt mem (p + 2) * 2 ^ 8
      + byteAt mem (p + 3) < 2 ^ 32 ∧
    (∃ hi lo, get_u32be mem p = Res.ok (hi, p + 4) ∧ get_u32be mem (p + 4) = Res.ok (lo, p + 8) ∧
      get_u64be mem p = Res.ok (hi * 2 ^ 32 + lo, p + 8) ∧
      hi * 2 ^ 32 + lo = byteAt mem p * 256 ^ 7 + byteAt mem (p + 1) * 256 ^ 6
        + byteAt mem (p + 2) * 256 ^ 5 + byteAt mem (p + 3) * 256 ^ 4
        + byteAt mem (p + 4) * 256 ^ 3 + byteAt mem (p + 5) * 256 ^ 2
        + byteAt mem (p + 6) * 256 ^ 1 + byteAt mem (p + 7) * 256 ^ 0 ∧
      hi * 2 ^ 32 + lo < 2 ^ 64) := by
  have e32 : get_u32be mem p = Res.ok (be32At mem p, p + 4) := get_u32be_of_le (by omega)
  have e32' : get_u32be mem (p + 4) = Res.ok (be32At mem (p + 4), p + 8) :=
    get_u32be_of_le (by omega)
  have e64 : get_u64be mem p = Res.ok (be64At mem p, p + 8) := get_u64be_of_le h
  have l1 := be32At_lt mem p
  have l2 := be32At_lt mem (p + 4)
  refine ⟨fun i hi => get_u8_of_lt (by omega), e32, l1, be32At mem p, be32At mem (p + 4), e32,
    e32', e64, ?_, by omega⟩
  simp only [be32At, Nat.add_assoc, Nat.reduceAdd, Nat.reducePow]
  omega

/-- Witness of C16: the eight bytes at the start of the sample message. -/
theorem multi_byte_reads_big_endian_witness :
    get_u32be (sample_ntp 1) 0 = Res.ok (0x230106ec, 4) ∧
    get_u64be (sample_ntp 1) 0 = Res.ok (0x230106ec00000001, 8) := by
  obtain ⟨_, h32, _, hi, lo, h1, h2, h64, _, _⟩ :=
    multi_byte_reads_big_endian (sample_ntp 1) 0 (by decide)
  have a1 : get_u32be (sample_ntp 1) 0 = Res.ok (0x230106ec, 4) := by decide
  have a2 : get_u32be (sample_ntp 1) (0 + 4) = Res.ok (1, 8) := by decide
  rw [a1] at h1
  rw [a2] at h2
  have b1 : hi = 0x230106ec := by
    have := Res.ok.inj h1
    simp only [Prod.mk.injEq] at this
    exact this.1.symm
  have b2 : lo = 1 := by
    have := Res.ok.inj h2
    simp only [Prod.mk.injEq] at this
    exact this.1.symm
  subst b1 b2
  exact ⟨a1, h64⟩

/-- C17: for a first message byte `b` (a value below 256) `ntp2txt` derives
`li = b >> 6`, `vn = (b >> 3) & 7` and `mode = b & 7`; then `li < 4`, `vn < 8`,
`mode < 8` and `li * 64 + vn * 8 + mode = b`. -/
theorem li_vn_mode_partition (ntp : ntp_pkt_t) (hb : ntp.li_vn_mode < 2 ^ 8) :
    (ntp2txt_li_vn_mode ntp).1 = ntp.li_vn_mode >>> 6 ∧
    (ntp2txt_li_vn_mode ntp).2.1 = (ntp.li_vn_mode >>> 3) &&& 7 ∧
    (ntp2txt_li_vn_mode ntp).2.2 = ntp.li_vn_mode &&& 7 ∧
    (ntp2txt_li_vn_mode ntp).1 < 4 ∧ (ntp2txt_li_vn_mode ntp).2.1 < 8 ∧
    (ntp2txt_li_vn_mode ntp).2.2 < 8 ∧
    (ntp2txt_li_vn_mode ntp).1 * 64 + (ntp2txt_li_vn_mode ntp).2.1 * 8
      + (ntp2txt_li_vn_mode ntp).2.2 = ntp.li_vn_mode := by
  have e7 : ∀ x : Nat, x &&& 7 = x % 8 := fun x => Nat.and_pow_two_sub_one_eq_mod x 3
  simp only [ntp2txt_li_vn_mode, Nat.shiftRight_zero, e7, Nat.shiftRight_eq_div_pow]
  refine ⟨?_, ?_, ?_, ?_, ?_, ?_, ?_⟩ <;> omega

/-- Witness of C17: the sample message, whose first byte is 0x23. -/
theorem li_vn_mode_partition_witness :
    ntp2txt_li_vn_mode (sample_msg 1) = (0, 4, 3) ∧
    ((ntp2txt_li_vn_mode (sample_msg 1)).1 = (sample_msg 1).li_vn_mode >>> 6 ∧
    (ntp2txt_li_vn_mode (sample_msg 1)).2.1 = ((sample_msg 1).li_vn_mode >>> 3) &&& 7 ∧
    (ntp2txt_li_vn_mode (sample_msg 1)).2.2 = (sample_msg 1).li_vn_mode &&& 7 ∧
    (ntp2txt_li_vn_mode (sample_msg 1)).1 < 4 ∧ (ntp2txt_li_vn_mode (sample_msg 1)).2.1 < 8 ∧
    (ntp2txt_li_vn_mode (sample_msg 1)).2.2 < 8 ∧
    (ntp2txt_li_vn_mode (sample_msg 1)).1 * 64 + (ntp2txt_li_vn_mode (sample_msg 1)).2.1 * 8
      + (ntp2txt_li_vn_mode (sample_msg 1)).2.2 = (sample_msg 1).li_vn_mode) :=
  ⟨by decide, li_vn_mode_partition (sample_msg 1) (by decide)⟩

/-- C18: for a frame of at least 24 captured bytes whose byte 14 has high
nibble 4, `handle_packet` gives a record exactly when byte 23 is 17 and the
length is `14 + 4h + 8 + 48`, `h` the low nibble of byte 14, whatever `h` is;
so the verdict is the same for two frames of the same length with the same
bytes 14 and 23. -/
theorem ipv4_exact_acceptance (ts : timeval) (mem : List uint8_t) (hL : 24 ≤ mem.length)
    (hv : byteAt mem 14 >>> 4 = 4) :
    byteAt mem 14 &&& 15 ≤ 15 ∧
    ((∃ r, handle_packet ts mem = Res.ok r) ↔
      byteAt mem 23 = 17 ∧ mem.length = 14 + 4 * (byteAt mem 14 &&& 15) + 8 + 48) ∧
    (∀ ts' mem', mem'.length = mem.length → byteAt mem' 14 = byteAt mem 14 →
      byteAt mem' 23 = byteAt mem 23 →
      ((∃ r, handle_packet ts mem = Res.ok r) ↔ (∃ r', handle_packet ts' mem' = Res.ok r'))) := by
  have key : ∀ (t : timeval) (m : List uint8_t), 24 ≤ m.length → byteAt m 14 >>> 4 = 4 →
      ((∃ r, handle_packet t m = Res.ok r) ↔
        byteAt m 23 = 17 ∧ m.length = 14 + 4 * (byteAt m 14 &&& 15) + 8 + 48) := by
    intro t m h24 h4
    rw [handle_packet_v4 t m (by omega) h4, if_neg (by omega)]
    by_cases hc : byteAt m 23 = 17 ∧ m.length = 14 + (byteAt m 14 &&& 15) * 4 + 56
    · rw [if_pos hc]
      exact ⟨fun _ => ⟨hc.1, by omega⟩, fun _ => ⟨_, rfl⟩⟩
    · rw [if_neg hc]
      constructor
      · rintro ⟨r, hr⟩; cases hr
      · rintro ⟨h1, h2⟩; exact absurd ⟨h1, by omega⟩ hc
  refine ⟨?_, key ts mem hL hv, ?_⟩
  · have e : byteAt mem 14 &&& 15 = byteAt mem 14 % 16 :=
      Nat.and_pow_two_sub_one_eq_mod (byteAt mem 14) 4
    omega
  · intro ts' mem' hl h14 h23
    rw [key ts mem hL hv, key ts' mem' (by omega) (by rw [h14]; exact hv), hl, h14, h23]

/-- Witness of C18: the 70-byte sample frame with header-length nibble 0. -/
theorem ipv4_exact_acceptance_witness :
    (∃ r, handle_packet sample_ts sample_ipv4_h0 = Res.ok r) ↔
      byteAt sample_ipv4_h0 23 = 17 ∧
      sample_ipv4_h0.length = 14 + 4 * (byteAt sample_ipv4_h0 14 &&& 15) + 8 + 48 :=
  (ipv4_exact_acceptance sample_ts sample_ipv4_h0 (by decide) (by decide)).2.1

/-- C19: when `handle_packet` reaches `parse_ntp_packet` (the IP headers are
walked, the check after the UDP header passes and the remaining length is the
message size), the decoder is started at offset `L - 48`, with `48 ≤ L`; it
makes no read out of bounds; it needs each of the 48 bytes up to index
`L - 1` (on a frame cut anywhere in them it faults) and its result is that of
decoding the last 48 bytes of the frame alone, so it depends on no other
byte; and the message of the record is this one. -/
theorem decoder_reads_last_48_bytes (ts : timeval) (mem : List uint8_t) (src dst : Nat)
    (v6 : Bool) (packet : Nat) (hip : handle_packet_ip mem = Res.ok (src, dst, v6, packet))
    (hchk : CHECK_PACKET_LEN (packet + sizeof_udp_hdr_t) mem.length = Res.ok ())
    (hsz : mem.length - (packet + sizeof_udp_hdr_t) = sizeof_ntp_pkt_pkd_t) :
    48 ≤ mem.length ∧ packet + sizeof_udp_hdr_t = mem.length - 48 ∧
    parse_ntp_packet mem (mem.length - 48) = Res.ok (ntpAt mem (mem.length - 48)) ∧
    (∀ k, k < 48 →
      parse_ntp_packet (mem.take (mem.length - 48 + k)) (mem.length - 48) = Res.fault) ∧
    parse_ntp_packet (mem.drop (mem.length - 48)) 0 = Res.ok (ntpAt mem (mem.length - 48)) ∧
    (∀ mem' : List uint8_t, mem.length ≤ mem'.length →
      (∀ k, k < 48 → byteAt mem' (mem.length - 48 + k) = byteAt mem (mem.length - 48 + k)) →
      parse_ntp_packet mem' (mem.length - 48) = parse_ntp_packet mem (mem.length - 48)) ∧
    (∃ r, handle_packet ts mem = Res.ok r ∧ r.ntp = ntpAt mem (mem.length - 48)) := by
  obtain ⟨h14, hp, hs, hd⟩ := handle_packet_ip_ok_shape mem src dst v6 packet hip
  have hle : packet + 8 ≤ mem.length := by
    simp only [CHECK_PACKET_LEN, sizeof_udp_hdr_t] at hchk
    by_cases hc : packet + 8 > mem.length
    · rw [if_pos hc] at hchk; cases hchk
    · omega
  simp only [sizeof_udp_hdr_t, sizeof_ntp_pkt_pkd_t] at hsz ⊢
  have hL : mem.length = packet + 56 := by omega
  have hoff : mem.length - 48 = packet + 8 := by omega
  have hparse := parse_ntp_packet_of_le mem (mem.length - 48) (by omega)
  refine ⟨by omega, by omega, hparse, ?_, ?_, ?_, ?_⟩
  · intro k hk
    apply parse_ntp_packet_fault
    rw [List.length_take]
    omega
  · have e := parse_ntp_packet_slice mem (mem.length - 48) (by omega)
    have hlen : (mem.drop (mem.length - 48)).length ≤ 48 := by
      rw [List.length_drop]; omega
    rw [List.take_of_length_le hlen] at e
    exact e
  · intro mem' hlen hsame
    rw [hparse, parse_ntp_packet_of_le mem' (mem.length - 48) (by omega)]
    exact congrArg Res.ok (ntpAt_congr mem' mem _ _ hsame)
  · refine ⟨recordAt ts mem v6 src dst packet, ?_, ?_⟩
    · simp only [handle_packet, hip, Res.ok_bind]
      rw [handle_packet_udp_eq ts mem v6 src dst packet hs hd, if_pos hL]
    · simp only [recordAt, hoff]

/-- Witness of C19: the 90-byte sample frame, whose decoder starts at 42. -/
theorem decoder_reads_last_48_bytes_witness :
    48 ≤ (sample_ipv4 0 0).length ∧ 34 + sizeof_udp_hdr_t = (sample_ipv4 0 0).length - 48 ∧
    parse_ntp_packet (sample_ipv4 0 0) ((sample_ipv4 0 0).length - 48)
      = Res.ok (ntpAt (sample_ipv4 0 0) ((sample_ipv4 0 0).length - 48)) :=
  have h := decoder_reads_last_48_bytes sample_ts (sample_ipv4 0 0) 26 30 false 34
    (by decide) (by decide) (by decide)
  ⟨h.1, h.2.1, h.2.2.1⟩

end ClkSyncObserver
